import Mathlib

/-!
Verification of the semantic-analysis driver (`lib/Sema/TypeChecker.cpp`).

The file shallowly embeds the worklist scheduler
(`typeCheckFunctionsAndExternalDecls`), the extension binder
(`bindExtensionDecl`), the syntactic conformance pre-filter
(`mayConformToKnownProtocol`), the capability lookup (`getProtocol`,
`getLiteralProtocol`) and the sealing walker (`TryAddFinal`), and proves
the specification's claims about them.

Collaborators that the source invokes through narrow contracts
(`typeCheckAbstractFunctionBody`, `handleExternalDecl`, `typeCheckDecl`,
`validateType`, `validateDecl`, `computeCaptures`) are modelled as opaque
effect functions supplied by an environment: the only thing the scheduler
can observe about them is which work items they append, which is exactly
the interface the C++ code has.
-/

namespace SemaDriver

/-! ## The worklist scheduler (`typeCheckFunctionsAndExternalDecls`) -/

/-- An entry of `ASTContext::ExternalDefinitions`.  The drain loop handles
`AbstractFunctionDecl` and `NominalTypeDecl` entries and hits
`llvm_unreachable` on anything else, which the model renders as `none`
(abnormal termination) in the scheduler. -/
inductive EDecl where
  | efun (f : Nat)
  | enominal (m : Nat)
  | eother
  deriving DecidableEq

/-- Observable history of the scheduler run.  `bodyChecked i f` records that
`typeCheckAbstractFunctionBody` ran on `definedFunctions[i] = f` from the
function drain, `captured i f` that `computeCaptures` ran on that entry,
`extProcessed i` that `ExternalDefinitions[i]` was processed, and
`typeValidated m` that `typeCheckDecl(m, /*isFirstPass=*/true)` ran on a
nominal type popped from `ValidatedTypes`. -/
inductive Event where
  | bodyChecked (i : Nat) (f : Nat)
  | captured (i : Nat) (f : Nat)
  | extProcessed (i : Nat)
  | typeValidated (m : Nat)
  deriving DecidableEq

/-- Work items appended by one collaborator call: new defined functions,
new external definitions, new pushes onto `ValidatedTypes` (via
`validateDecl`), and new implicitly defined functions. -/
structure Effects where
  newDefined : List Nat
  newExternal : List EDecl
  newValidated : List Nat
  newImplicit : List Nat
  deriving DecidableEq

/-- The scheduler-visible state: the two append-only sequences with their
read cursors, the `ValidatedTypes` stack, the staging buffer of implicitly
defined functions, the persisted external cursor
(`Context.LastCheckedExternalDefinition`), a counter of how many nominal
types were ever pushed onto `ValidatedTypes`, and the event trace. -/
structure SchedState where
  definedFunctions : List Nat
  externalDefinitions : List EDecl
  validatedTypes : List Nat
  implicitlyDefinedFunctions : List Nat
  currentFunctionIdx : Nat
  currentExternalDef : Nat
  lastCheckedExternalDefinition : Nat
  validatedPushes : Nat
  trace : List Event
  deriving DecidableEq

/-- The collaborator environment: what each opaque checking call appends. -/
structure Env where
  checkFnBody : Nat → Effects
  handleExternalDecl : Nat → Effects
  firstPassDecl : Nat → Effects

/-- Append the work items produced by a collaborator call. -/
def applyEffects (e : Effects) (st : SchedState) : SchedState :=
  { st with
    definedFunctions := st.definedFunctions ++ e.newDefined
    externalDefinitions := st.externalDefinitions ++ e.newExternal
    validatedTypes := st.validatedTypes ++ e.newValidated
    implicitlyDefinedFunctions := st.implicitlyDefinedFunctions ++ e.newImplicit
    validatedPushes := st.validatedPushes + e.newValidated.length }

/-- Advance the external-definition cursor, recording the processed index. -/
def advanceExt (st : SchedState) : SchedState :=
  { st with
    trace := st.trace ++ [Event.extProcessed st.currentExternalDef]
    currentExternalDef := st.currentExternalDef + 1 }

/-- Advance the function cursor, recording the body check of entry `f`. -/
def advanceFn (f : Nat) (st : SchedState) : SchedState :=
  { st with
    trace := st.trace ++ [Event.bodyChecked st.currentFunctionIdx f]
    currentFunctionIdx := st.currentFunctionIdx + 1 }

/-- The external-definition drain:
`for (unsigned n = ExternalDefinitions.size(); currentExternalDef != n; ++currentExternalDef)`.
`n` is evaluated once at loop entry, so the drain processes exactly
`n - currentExternalDef` items (`k` here) even if the checks append more. -/
def drainExt (env : Env) : Nat → SchedState → Option SchedState
  | 0, st => some st
  | Nat.succ k, st =>
    match st.externalDefinitions.get? st.currentExternalDef with
    | some (EDecl.efun f) =>
      drainExt env k (advanceExt (applyEffects (env.checkFnBody f) st))
    | some (EDecl.enominal m) =>
      drainExt env k (advanceExt (applyEffects (env.handleExternalDecl m) st))
    | _ => none

/-- The function-body drain:
`for (unsigned n = definedFunctions.size(); currentFunctionIdx != n; ++currentFunctionIdx)`,
again with `n` snapshotted at loop entry. -/
def drainFns (env : Env) : Nat → SchedState → Option SchedState
  | 0, st => some st
  | Nat.succ k, st =>
    match st.definedFunctions.get? st.currentFunctionIdx with
    | some f => drainFns env k (advanceFn f (applyEffects (env.checkFnBody f) st))
    | none => none

/-- `for (unsigned i = currentFunctionIdx; i > previousFunctionIdx; --i)
computeCaptures(definedFunctions[i-1])`: captures for the just-checked
range, most recently appended entry first.  The second argument is the
loop variable `i`; `prev` is `previousFunctionIdx`. -/
def captureLoop (prev : Nat) : Nat → SchedState → SchedState
  | 0, st => st
  | Nat.succ c, st =>
    if prev ≤ c then
      captureLoop prev c
        { st with trace := st.trace ++ [Event.captured c (st.definedFunctions.getD c 0)] }
    else st

/-- `while (!ValidatedTypes.empty()) { back(); pop_back(); typeCheckDecl(...); }`.
Popping may push more items, so the drain is fuelled; running out of fuel
models non-termination (`none`). -/
def drainValidated (env : Env) : Nat → SchedState → Option SchedState
  | 0, st => match st.validatedTypes with
    | [] => some st
    | _ :: _ => none
  | Nat.succ fuel, st =>
    match st.validatedTypes.getLast? with
    | none => some st
    | some m =>
      drainValidated env fuel
        (applyEffects (env.firstPassDecl m)
          { st with
            validatedTypes := st.validatedTypes.dropLast
            trace := st.trace ++ [Event.typeValidated m] })

/-- Append the staging buffer of implicitly defined functions to
`definedFunctions` and clear it. -/
def mergeImplicits (st : SchedState) : SchedState :=
  { st with
    definedFunctions := st.definedFunctions ++ st.implicitlyDefinedFunctions
    implicitlyDefinedFunctions := [] }

/-- One iteration of the scheduler's `do { ... }` body: drain externals,
drain function bodies, compute captures for the just-checked range in
reverse, drain `ValidatedTypes`, merge the implicit staging buffer. -/
def schedIter (env : Env) (fuel : Nat) (st : SchedState) : Option SchedState :=
  (drainExt env (st.externalDefinitions.length - st.currentExternalDef) st).bind
    (fun st1 =>
      (drainFns env (st1.definedFunctions.length - st1.currentFunctionIdx) st1).bind
        (fun st2 =>
          (drainValidated env fuel
              (captureLoop st1.currentFunctionIdx st2.currentFunctionIdx st2)).map
            mergeImplicits))

/-- The scheduler's `do { ... } while (currentFunctionIdx < definedFunctions.size()
|| currentExternalDef < ExternalDefinitions.size())` loop, fuelled. -/
def schedLoop (env : Env) : Nat → SchedState → Option SchedState
  | 0, _ => none
  | Nat.succ fuel, st =>
    (schedIter env (Nat.succ fuel) st).bind
      (fun st' =>
        if st'.currentFunctionIdx < st'.definedFunctions.length ∨
           st'.currentExternalDef < st'.externalDefinitions.length then
          schedLoop env fuel st'
        else some st')

/-- `typeCheckFunctionsAndExternalDecls`: initialise the cursors
(`currentFunctionIdx = 0`, `currentExternalDef = LastCheckedExternalDefinition`),
run the loop, and store the external cursor back into the context. -/
def typeCheckFunctionsAndExternalDecls (env : Env) (fuel : Nat)
    (st : SchedState) : Option SchedState :=
  (schedLoop env fuel
      { st with
        currentFunctionIdx := 0
        currentExternalDef := st.lastCheckedExternalDefinition }).map
    (fun st' => { st' with lastCheckedExternalDefinition := st'.currentExternalDef })

/-- Is this event a body check of defined-function entry `i`? -/
def isBodyAt (i : Nat) : Event → Bool
  | Event.bodyChecked j _ => j == i
  | _ => false

/-- Is this event a processing of external definition `i`? -/
def isExtAt (i : Nat) : Event → Bool
  | Event.extProcessed j => j == i
  | _ => false

/-- Is this event a first-pass validation of a pending nominal type? -/
def isValidatedEv : Event → Bool
  | Event.typeValidated _ => true
  | _ => false

/-- Is this event a `computeCaptures` record? -/
def isCaptureEv : Event → Bool
  | Event.captured _ _ => true
  | _ => false

/-- Is this event a defined-function body check record? -/
def isBodyEv : Event → Bool
  | Event.bodyChecked _ _ => true
  | _ => false

/-- How many times entry `i` of `definedFunctions` had its body checked. -/
def bodyCount (i : Nat) (tr : List Event) : Nat := (tr.filter (isBodyAt i)).length

/-- How many times entry `i` of `ExternalDefinitions` was processed. -/
def extCount (i : Nat) (tr : List Event) : Nat := (tr.filter (isExtAt i)).length

/-- How many pending nominal types were first-pass validated. -/
def valCount (tr : List Event) : Nat := (tr.filter isValidatedEv).length

theorem bodyCount_append (i : Nat) (tr : List Event) (e : Event) :
    bodyCount i (tr ++ [e]) = bodyCount i tr + (if isBodyAt i e then 1 else 0) := by
  cases h : isBodyAt i e <;>
    simp [bodyCount, List.filter_append, List.filter, h]

theorem extCount_append (i : Nat) (tr : List Event) (e : Event) :
    extCount i (tr ++ [e]) = extCount i tr + (if isExtAt i e then 1 else 0) := by
  cases h : isExtAt i e <;>
    simp [extCount, List.filter_append, List.filter, h]

theorem valCount_append (tr : List Event) (e : Event) :
    valCount (tr ++ [e]) = valCount tr + (if isValidatedEv e then 1 else 0) := by
  cases h : isValidatedEv e <;>
    simp [valCount, List.filter_append, List.filter, h]

theorem bodyCount_append_captures (i : Nat) (tr evs : List Event)
    (h : ∀ e ∈ evs, isCaptureEv e = true) :
    bodyCount i (tr ++ evs) = bodyCount i tr := by
  have hnil : evs.filter (isBodyAt i) = [] := by
    refine List.filter_eq_nil.mpr (fun e he => ?_)
    have := h e he
    cases e <;> simp_all [isCaptureEv, isBodyAt]
  simp [bodyCount, List.filter_append, hnil]

theorem extCount_append_captures (i : Nat) (tr evs : List Event)
    (h : ∀ e ∈ evs, isCaptureEv e = true) :
    extCount i (tr ++ evs) = extCount i tr := by
  have hnil : evs.filter (isExtAt i) = [] := by
    refine List.filter_eq_nil.mpr (fun e he => ?_)
    have := h e he
    cases e <;> simp_all [isCaptureEv, isExtAt]
  simp [extCount, List.filter_append, hnil]

theorem valCount_append_captures (tr evs : List Event)
    (h : ∀ e ∈ evs, isCaptureEv e = true) :
    valCount (tr ++ evs) = valCount tr := by
  have hnil : evs.filter isValidatedEv = [] := by
    refine List.filter_eq_nil.mpr (fun e he => ?_)
    have := h e he
    cases e <;> simp_all [isCaptureEv, isValidatedEv]
  simp [valCount, List.filter_append, hnil]

/-- The scheduler invariant, relative to the initial cursor positions `a`
(function cursor) and `b` (external cursor): the cursors stay in bounds,
every defined function in `[a, currentFunctionIdx)` has had its body
checked exactly once (and nothing at or beyond the cursor has), likewise
for external definitions in `[b, currentExternalDef)`, and every nominal
type ever pushed onto `ValidatedTypes` has either been first-pass
validated or is still on the stack. -/
def SchedInv (a b : Nat) (st : SchedState) : Prop :=
  st.currentFunctionIdx ≤ st.definedFunctions.length ∧
  st.currentExternalDef ≤ st.externalDefinitions.length ∧
  a ≤ st.currentFunctionIdx ∧
  b ≤ st.currentExternalDef ∧
  (∀ i, bodyCount i st.trace = if a ≤ i ∧ i < st.currentFunctionIdx then 1 else 0) ∧
  (∀ i, extCount i st.trace = if b ≤ i ∧ i < st.currentExternalDef then 1 else 0) ∧
  st.validatedPushes = valCount st.trace + st.validatedTypes.length

theorem bodyCount_append_ext (i j : Nat) (tr : List Event) :
    bodyCount i (tr ++ [Event.extProcessed j]) = bodyCount i tr := by
  rw [bodyCount_append]; simp [isBodyAt]

theorem bodyCount_append_val (i m : Nat) (tr : List Event) :
    bodyCount i (tr ++ [Event.typeValidated m]) = bodyCount i tr := by
  rw [bodyCount_append]; simp [isBodyAt]

theorem bodyCount_append_body (i j f : Nat) (tr : List Event) :
    bodyCount i (tr ++ [Event.bodyChecked j f]) =
      bodyCount i tr + (if j = i then 1 else 0) := by
  rw [bodyCount_append]
  by_cases h : j = i <;> simp [isBodyAt, h]

theorem extCount_append_body (i j f : Nat) (tr : List Event) :
    extCount i (tr ++ [Event.bodyChecked j f]) = extCount i tr := by
  rw [extCount_append]; simp [isExtAt]

theorem extCount_append_val (i m : Nat) (tr : List Event) :
    extCount i (tr ++ [Event.typeValidated m]) = extCount i tr := by
  rw [extCount_append]; simp [isExtAt]

theorem extCount_append_ext (i j : Nat) (tr : List Event) :
    extCount i (tr ++ [Event.extProcessed j]) =
      extCount i tr + (if j = i then 1 else 0) := by
  rw [extCount_append]
  by_cases h : j = i <;> simp [isExtAt, h]

theorem valCount_append_ext (j : Nat) (tr : List Event) :
    valCount (tr ++ [Event.extProcessed j]) = valCount tr := by
  rw [valCount_append]; simp [isValidatedEv]

theorem valCount_append_body (j f : Nat) (tr : List Event) :
    valCount (tr ++ [Event.bodyChecked j f]) = valCount tr := by
  rw [valCount_append]; simp [isValidatedEv]

theorem valCount_append_val (m : Nat) (tr : List Event) :
    valCount (tr ++ [Event.typeValidated m]) = valCount tr + 1 := by
  rw [valCount_append]; simp [isValidatedEv]

theorem SchedInv_stepExt {a b : Nat} {st : SchedState} (e : Effects)
    (h : SchedInv a b st)
    (hlt : st.currentExternalDef < st.externalDefinitions.length) :
    SchedInv a b (advanceExt (applyEffects e st)) := by
  obtain ⟨h1, h2, h3, h4, h5, h6, h7⟩ := h
  refine ⟨?_, ?_, ?_, ?_, ?_, ?_, ?_⟩ <;>
    simp only [advanceExt, applyEffects, List.length_append]
  · omega
  · omega
  · omega
  · omega
  · intro i
    rw [bodyCount_append_ext]
    exact h5 i
  · intro i
    rw [extCount_append_ext]
    have hcnt := h6 i
    split_ifs at hcnt ⊢ <;> omega
  · rw [valCount_append_ext]
    omega

theorem SchedInv_stepFn {a b : Nat} {st : SchedState} (e : Effects) (f : Nat)
    (h : SchedInv a b st)
    (hlt : st.currentFunctionIdx < st.definedFunctions.length) :
    SchedInv a b (advanceFn f (applyEffects e st)) := by
  obtain ⟨h1, h2, h3, h4, h5, h6, h7⟩ := h
  refine ⟨?_, ?_, ?_, ?_, ?_, ?_, ?_⟩ <;>
    simp only [advanceFn, applyEffects, List.length_append]
  · omega
  · omega
  · omega
  · omega
  · intro i
    rw [bodyCount_append_body]
    have hcnt := h5 i
    split_ifs at hcnt ⊢ <;> omega
  · intro i
    rw [extCount_append_body]
    exact h6 i
  · rw [valCount_append_body]
    omega

theorem get?_lt {α : Type} {l : List α} {n : Nat} {x : α}
    (h : l.get? n = some x) : n < l.length := by
  by_contra hc
  rw [List.get?_eq_none.mpr (by omega)] at h
  exact Option.noConfusion h

theorem drainExt_inv {env : Env} {a b : Nat} :
    ∀ (k : Nat) (st st' : SchedState), SchedInv a b st →
      drainExt env k st = some st' → SchedInv a b st' := by
  intro k
  induction k with
  | zero =>
    intro st st' h hrun
    simp only [drainExt] at hrun
    injection hrun with heq
    exact heq ▸ h
  | succ k ih =>
    intro st st' h hrun
    simp only [drainExt] at hrun
    cases hget : st.externalDefinitions.get? st.currentExternalDef with
    | none => rw [hget] at hrun; exact Option.noConfusion hrun
    | some d =>
      rw [hget] at hrun
      have hlt := get?_lt hget
      cases d with
      | efun f => exact ih _ _ (SchedInv_stepExt _ h hlt) hrun
      | enominal m => exact ih _ _ (SchedInv_stepExt _ h hlt) hrun
      | eother => exact Option.noConfusion hrun

theorem drainFns_inv {env : Env} {a b : Nat} :
    ∀ (k : Nat) (st st' : SchedState), SchedInv a b st →
      drainFns env k st = some st' → SchedInv a b st' := by
  intro k
  induction k with
  | zero =>
    intro st st' h hrun
    simp only [drainFns] at hrun
    injection hrun with heq
    exact heq ▸ h
  | succ k ih =>
    intro st st' h hrun
    simp only [drainFns] at hrun
    cases hget : st.definedFunctions.get? st.currentFunctionIdx with
    | none => rw [hget] at hrun; exact Option.noConfusion hrun
    | some f =>
      rw [hget] at hrun
      exact ih _ _ (SchedInv_stepFn _ f h (get?_lt hget)) hrun

/-- The capture loop only appends `captured` events and touches no other
state component. -/
theorem captureLoop_spec (prev : Nat) :
    ∀ (c : Nat) (st : SchedState), ∃ evs,
      captureLoop prev c st =
        { st with trace := st.trace ++ evs } ∧
      ∀ e ∈ evs, isCaptureEv e = true := by
  intro c
  induction c with
  | zero => intro st; exact ⟨[], by simp [captureLoop], by simp⟩
  | succ c ih =>
    intro st
    by_cases hle : prev ≤ c
    · obtain ⟨evs, heq, hcap⟩ :=
        ih { st with trace := st.trace ++ [Event.captured c (st.definedFunctions.getD c 0)] }
      refine ⟨Event.captured c (st.definedFunctions.getD c 0) :: evs, ?_, ?_⟩
      · simp only [captureLoop, if_pos hle, heq, List.append_assoc, List.singleton_append]
      · intro e he
        rcases List.mem_cons.mp he with h | h
        · subst h; rfl
        · exact hcap e h
    · exact ⟨[], by simp [captureLoop, hle], by simp⟩

theorem SchedInv_captureLoop {a b : Nat} (prev c : Nat) {st : SchedState}
    (h : SchedInv a b st) : SchedInv a b (captureLoop prev c st) := by
  obtain ⟨evs, heq, hcap⟩ := captureLoop_spec prev c st
  obtain ⟨h1, h2, h3, h4, h5, h6, h7⟩ := h
  rw [heq]
  refine ⟨h1, h2, h3, h4, ?_, ?_, ?_⟩
  · intro i; rw [bodyCount_append_captures i _ _ hcap]; exact h5 i
  · intro i; rw [extCount_append_captures i _ _ hcap]; exact h6 i
  · rw [valCount_append_captures _ _ hcap]; exact h7

theorem drainValidated_inv {env : Env} {a b : Nat} :
    ∀ (fuel : Nat) (st st' : SchedState), SchedInv a b st →
      drainValidated env fuel st = some st' → SchedInv a b st' := by
  intro fuel
  induction fuel with
  | zero =>
    intro st st' h hrun
    simp only [drainValidated] at hrun
    cases hv : st.validatedTypes with
    | nil =>
      rw [hv] at hrun
      injection hrun with heq
      exact heq ▸ h
    | cons x xs => rw [hv] at hrun; exact Option.noConfusion hrun
  | succ fuel ih =>
    intro st st' h hrun
    simp only [drainValidated] at hrun
    cases hget : st.validatedTypes.getLast? with
    | none =>
      rw [hget] at hrun
      injection hrun with heq
      exact heq ▸ h
    | some m =>
      rw [hget] at hrun
      refine ih _ _ ?_ hrun
      obtain ⟨h1, h2, h3, h4, h5, h6, h7⟩ := h
      have hne : st.validatedTypes ≠ [] := by
        intro hc; rw [hc] at hget; simp at hget
      have hlen : 0 < st.validatedTypes.length := List.length_pos.mpr hne
      refine ⟨?_, ?_, h3, h4, ?_, ?_, ?_⟩ <;>
        simp only [applyEffects, List.length_append]
      · omega
      · omega
      · intro i
        rw [bodyCount_append_val]
        exact h5 i
      · intro i
        rw [extCount_append_val]
        exact h6 i
      · rw [valCount_append_val]
        simp only [List.length_dropLast]
        omega

theorem drainValidated_empty {env : Env} :
    ∀ (fuel : Nat) (st st' : SchedState),
      drainValidated env fuel st = some st' → st'.validatedTypes = [] := by
  intro fuel
  induction fuel with
  | zero =>
    intro st st' hrun
    simp only [drainValidated] at hrun
    cases hv : st.validatedTypes with
    | nil =>
      rw [hv] at hrun
      injection hrun with heq
      rw [← heq, hv]
    | cons x xs => rw [hv] at hrun; exact Option.noConfusion hrun
  | succ fuel ih =>
    intro st st' hrun
    simp only [drainValidated] at hrun
    cases hget : st.validatedTypes.getLast? with
    | none =>
      rw [hget] at hrun
      injection hrun with heq
      have h2 : st.validatedTypes = [] := by
        cases hv : st.validatedTypes with
        | nil => rfl
        | cons x xs => rw [hv] at hget; simp [List.getLast?] at hget
      rw [← heq]; exact h2
    | some m =>
      rw [hget] at hrun
      exact ih _ _ hrun

theorem SchedInv_mergeImplicits {a b : Nat} {st : SchedState}
    (h : SchedInv a b st) : SchedInv a b (mergeImplicits st) := by
  obtain ⟨h1, h2, h3, h4, h5, h6, h7⟩ := h
  refine ⟨?_, h2, h3, h4, h5, h6, h7⟩
  simp only [mergeImplicits, List.length_append]
  omega

theorem schedIter_inv {env : Env} {a b : Nat} {fuel : Nat} {st st' : SchedState}
    (h : SchedInv a b st) (hrun : schedIter env fuel st = some st') :
    SchedInv a b st' := by
  unfold schedIter at hrun
  rcases Option.bind_eq_some.mp hrun with ⟨st1, h1, hrun1⟩
  rcases Option.bind_eq_some.mp hrun1 with ⟨st2, h2, hrun2⟩
  rcases Option.map_eq_some'.mp hrun2 with ⟨st4, h3, hmerge⟩
  have hi1 := drainExt_inv _ _ _ h h1
  have hi2 := drainFns_inv _ _ _ hi1 h2
  have hi3 := SchedInv_captureLoop st1.currentFunctionIdx st2.currentFunctionIdx hi2
  have hi4 := drainValidated_inv _ _ _ hi3 h3
  exact hmerge ▸ SchedInv_mergeImplicits hi4

theorem schedIter_drained {env : Env} {fuel : Nat} {st st' : SchedState}
    (hrun : schedIter env fuel st = some st') :
    st'.validatedTypes = [] ∧ st'.implicitlyDefinedFunctions = [] := by
  unfold schedIter at hrun
  rcases Option.bind_eq_some.mp hrun with ⟨st1, h1, hrun1⟩
  rcases Option.bind_eq_some.mp hrun1 with ⟨st2, h2, hrun2⟩
  rcases Option.map_eq_some'.mp hrun2 with ⟨st4, h3, hmerge⟩
  have hempty := drainValidated_empty _ _ _ h3
  constructor
  · rw [← hmerge]; simpa [mergeImplicits] using hempty
  · rw [← hmerge]; simp [mergeImplicits]

theorem schedLoop_post {env : Env} {a b : Nat} :
    ∀ (fuel : Nat) (st st' : SchedState), SchedInv a b st →
      schedLoop env fuel st = some st' →
      SchedInv a b st' ∧
      st'.currentFunctionIdx = st'.definedFunctions.length ∧
      st'.currentExternalDef = st'.externalDefinitions.length ∧
      st'.validatedTypes = [] ∧
      st'.implicitlyDefinedFunctions = [] := by
  intro fuel
  induction fuel with
  | zero => intro st st' _ hrun; exact Option.noConfusion hrun
  | succ fuel ih =>
    intro st st' h hrun
    simp only [schedLoop] at hrun
    rcases Option.bind_eq_some.mp hrun with ⟨st1, h1, hrun1⟩
    have hinv1 := schedIter_inv h h1
    by_cases hcond : st1.currentFunctionIdx < st1.definedFunctions.length ∨
        st1.currentExternalDef < st1.externalDefinitions.length
    · rw [if_pos hcond] at hrun1
      exact ih _ _ hinv1 hrun1
    · rw [if_neg hcond] at hrun1
      injection hrun1 with heq
      subst heq
      obtain ⟨hd1, hd2⟩ := schedIter_drained h1
      push_neg at hcond
      have hinv2 := hinv1
      obtain ⟨hle1, hle2, _, _, _, _, _⟩ := hinv2
      exact ⟨hinv1, by omega, by omega, hd1, hd2⟩

/-- C1: when `typeCheckFunctionsAndExternalDecls` returns, the external
cursor equals the length of `ExternalDefinitions`, the function cursor
equals the length of `definedFunctions`, the `ValidatedTypes` stack and
the implicit-function staging buffer are empty — even though the checks
run during the loop may append new functions, external definitions and
pending nominal types — and every item appended to these collections is
processed exactly once (each defined function's body checked once, each
external definition handled once, each pushed nominal type first-pass
validated once). -/
theorem scheduler_loop_drains_all_work (env : Env) (fuel : Nat)
    (st0 stF : SchedState)
    (htrace : st0.trace = [])
    (hpushes : st0.validatedPushes = st0.validatedTypes.length)
    (hlast : st0.lastCheckedExternalDefinition ≤ st0.externalDefinitions.length)
    (hrun : typeCheckFunctionsAndExternalDecls env fuel st0 = some stF) :
    stF.currentFunctionIdx = stF.definedFunctions.length ∧
    stF.currentExternalDef = stF.externalDefinitions.length ∧
    stF.validatedTypes = [] ∧
    stF.implicitlyDefinedFunctions = [] ∧
    stF.lastCheckedExternalDefinition = stF.externalDefinitions.length ∧
    (∀ i, i < stF.definedFunctions.length → bodyCount i stF.trace = 1) ∧
    (∀ i, st0.lastCheckedExternalDefinition ≤ i →
      i < stF.externalDefinitions.length → extCount i stF.trace = 1) ∧
    stF.validatedPushes = valCount stF.trace := by
  unfold typeCheckFunctionsAndExternalDecls at hrun
  rcases Option.map_eq_some'.mp hrun with ⟨st1, hloop, hstF⟩
  have hinv0 : SchedInv 0 st0.lastCheckedExternalDefinition
      { st0 with currentFunctionIdx := 0
                 currentExternalDef := st0.lastCheckedExternalDefinition } := by
    refine ⟨Nat.zero_le _, hlast, Nat.le_refl _, Nat.le_refl _, ?_, ?_, ?_⟩
    · intro i; simp [htrace, bodyCount]
    · intro i
      simp only [htrace]
      have : ¬ (st0.lastCheckedExternalDefinition ≤ i ∧
          i < st0.lastCheckedExternalDefinition) := by omega
      simp [extCount, this]
    · simp [htrace, valCount, hpushes]
  obtain ⟨hinv, hcur1, hcur2, hval, himp⟩ := schedLoop_post fuel _ st1 hinv0 hloop
  obtain ⟨_, _, _, _, hbody, hext, hpush⟩ := hinv
  subst hstF
  dsimp only
  refine ⟨hcur1, hcur2, hval, himp, ?_, ?_, ?_, ?_⟩
  · exact hcur2
  · intro i hi
    have := hbody i
    rw [← hcur1] at hi
    split_ifs at this <;> omega
  · intro i hi1 hi2
    have := hext i
    rw [← hcur2] at hi2
    split_ifs at this <;> omega
  · rw [hpush, hval]
    simp

/-- `idxRange s n = [s, s+1, ..., s+n-1]`: the index range processed by a
drain loop. -/
def idxRange (s : Nat) : Nat → List Nat
  | 0 => []
  | Nat.succ n => s :: idxRange (s + 1) n

theorem idxRange_snoc : ∀ (n s : Nat), idxRange s (n + 1) = idxRange s n ++ [s + n] := by
  intro n
  induction n with
  | zero => intro s; simp [idxRange]
  | succ n ih =>
    intro s
    show s :: idxRange (s + 1) (n + 1) = idxRange s (n + 1) ++ [s + (n + 1)]
    rw [ih (s + 1)]
    show s :: (idxRange (s + 1) n ++ [s + 1 + n]) =
      (s :: idxRange (s + 1) n) ++ [s + (n + 1)]
    rw [List.cons_append]
    have h : s + 1 + n = s + (n + 1) := by omega
    rw [h]

theorem getD_extend (l t : List Nat) (i : Nat) (h : i < l.length) :
    (l ++ t).getD i 0 = l.getD i 0 := by
  simp only [List.getD_eq_getElem?_getD, List.getElem?_append, if_pos h]

/-- The external drain leaves the function cursor alone, only extends
`definedFunctions`, and appends only external-processing events (no
defined-function body checks, no capture computations). -/
theorem drainExt_trace {env : Env} :
    ∀ (k : Nat) (st st' : SchedState), drainExt env k st = some st' →
      st'.currentFunctionIdx = st.currentFunctionIdx ∧
      (∃ t, st'.definedFunctions = st.definedFunctions ++ t) ∧
      (∃ evs, st'.trace = st.trace ++ evs ∧
        ∀ e ∈ evs, isBodyEv e = false ∧ isCaptureEv e = false) := by
  intro k
  induction k with
  | zero =>
    intro st st' hrun
    simp only [drainExt] at hrun
    injection hrun with heq
    subst heq
    exact ⟨rfl, ⟨[], by simp⟩, ⟨[], by simp, by simp⟩⟩
  | succ k ih =>
    intro st st' hrun
    simp only [drainExt] at hrun
    have step : ∀ e1 : Effects,
        drainExt env k (advanceExt (applyEffects e1 st)) = some st' →
        st'.currentFunctionIdx = st.currentFunctionIdx ∧
        (∃ t, st'.definedFunctions = st.definedFunctions ++ t) ∧
        (∃ evs, st'.trace = st.trace ++ evs ∧
          ∀ e ∈ evs, isBodyEv e = false ∧ isCaptureEv e = false) := by
      intro e1 hrun1
      obtain ⟨hc, ⟨t, ht⟩, ⟨evs, hevs, hno⟩⟩ := ih _ _ hrun1
      refine ⟨hc, ⟨e1.newDefined ++ t, ?_⟩,
        ⟨Event.extProcessed st.currentExternalDef :: evs, ?_, ?_⟩⟩
      · simpa [advanceExt, applyEffects] using ht
      · simpa [advanceExt, applyEffects] using hevs
      · intro e he
        rcases List.mem_cons.mp he with h | h
        · subst h; exact ⟨rfl, rfl⟩
        · exact hno e h
    cases hget : st.externalDefinitions.get? st.currentExternalDef with
    | none => rw [hget] at hrun; exact Option.noConfusion hrun
    | some d =>
      rw [hget] at hrun
      cases d with
      | efun f => exact step _ hrun
      | enominal m => exact step _ hrun
      | eother => exact Option.noConfusion hrun

/-- The function drain advances the cursor by exactly `k` (the snapshot
`n - currentFunctionIdx` taken at loop entry), extends `definedFunctions`,
and appends exactly the body-check events for the index range
`[currentFunctionIdx, currentFunctionIdx + k)`, in increasing order. -/
theorem drainFns_trace {env : Env} :
    ∀ (k : Nat) (st st' : SchedState), drainFns env k st = some st' →
      st'.currentFunctionIdx = st.currentFunctionIdx + k ∧
      (∃ t, st'.definedFunctions = st.definedFunctions ++ t) ∧
      (k = 0 ∨ st.currentFunctionIdx + k ≤ st'.definedFunctions.length) ∧
      st'.trace = st.trace ++ (idxRange st.currentFunctionIdx k).map
          (fun i => Event.bodyChecked i (st'.definedFunctions.getD i 0)) := by
  intro k
  induction k with
  | zero =>
    intro st st' hrun
    simp only [drainFns] at hrun
    injection hrun with heq
    subst heq
    exact ⟨rfl, ⟨[], by simp⟩, Or.inl rfl, by simp [idxRange]⟩
  | succ k ih =>
    intro st st' hrun
    simp only [drainFns] at hrun
    cases hget : st.definedFunctions.get? st.currentFunctionIdx with
    | none => rw [hget] at hrun; exact Option.noConfusion hrun
    | some f =>
      rw [hget] at hrun
      have hlt := get?_lt hget
      obtain ⟨hc, ⟨t, ht⟩, hbound, htr⟩ := ih _ _ hrun
      have hext : ∃ u, st'.definedFunctions = st.definedFunctions ++ u := by
        refine ⟨(env.checkFnBody f).newDefined ++ t, ?_⟩
        simpa [advanceFn, applyEffects] using ht
      obtain ⟨u, hu⟩ := hext
      have hgetD : st'.definedFunctions.getD st.currentFunctionIdx 0 = f := by
        rw [hu, getD_extend _ _ _ hlt]
        simp only [List.getD_eq_getElem?_getD, ← List.get?_eq_getElem?, hget]
        rfl
      refine ⟨?_, ⟨u, hu⟩, ?_, ?_⟩
      · simp only [advanceFn, applyEffects] at hc
        omega
      · refine Or.inr ?_
        rcases hbound with h0 | hbd
        · subst h0
          simp only [advanceFn, applyEffects] at hc
          have : st'.definedFunctions.length = st.definedFunctions.length +
              (env.checkFnBody f).newDefined.length + t.length := by
            rw [ht]
            simp only [advanceFn, applyEffects, List.length_append]
          omega
        · simp only [advanceFn, applyEffects] at hbd
          omega
      · rw [htr]
        simp only [advanceFn, applyEffects, idxRange, List.map_cons, hgetD]
        simp [List.append_assoc]

/-- The capture loop appends exactly the capture events for
`[prev, c)`, most recent index first, and changes nothing else. -/
theorem captureLoop_trace (prev : Nat) :
    ∀ (c : Nat) (st : SchedState), prev ≤ c →
      captureLoop prev c st =
        { st with trace := st.trace ++
            ((idxRange prev (c - prev)).reverse.map
              (fun i => Event.captured i (st.definedFunctions.getD i 0))) } := by
  intro c
  induction c with
  | zero =>
    intro st hle
    have : prev = 0 := Nat.le_zero.mp hle
    subst this
    simp [captureLoop, idxRange]
  | succ c ih =>
    intro st hle
    by_cases hc : prev ≤ c
    · have hstep := ih { st with trace := st.trace ++
        [Event.captured c (st.definedFunctions.getD c 0)] } hc
      simp only [captureLoop, if_pos hc]
      rw [hstep]
      have hrange : idxRange prev (Nat.succ c - prev) =
          idxRange prev (c - prev) ++ [c] := by
        have h1 : Nat.succ c - prev = (c - prev) + 1 := by omega
        rw [h1, idxRange_snoc]
        congr 2
        omega
      simp only [hrange, List.reverse_append, List.reverse_cons, List.reverse_nil,
        List.nil_append, List.singleton_append, List.map_cons, List.append_assoc,
        List.singleton_append]
    · have : prev = Nat.succ c := by omega
      subst this
      simp [captureLoop, hc, idxRange]

/-- The `ValidatedTypes` drain leaves the function cursor alone, only
extends `definedFunctions`, and appends only first-pass-validation
events. -/
theorem drainValidated_trace {env : Env} :
    ∀ (fuel : Nat) (st st' : SchedState), drainValidated env fuel st = some st' →
      st'.currentFunctionIdx = st.currentFunctionIdx ∧
      (∃ t, st'.definedFunctions = st.definedFunctions ++ t) ∧
      (∃ evs, st'.trace = st.trace ++ evs ∧
        ∀ e ∈ evs, isBodyEv e = false ∧ isCaptureEv e = false) := by
  intro fuel
  induction fuel with
  | zero =>
    intro st st' hrun
    simp only [drainValidated] at hrun
    cases hv : st.validatedTypes with
    | nil =>
      rw [hv] at hrun
      injection hrun with heq
      subst heq
      exact ⟨rfl, ⟨[], by simp⟩, ⟨[], by simp, by simp⟩⟩
    | cons x xs => rw [hv] at hrun; exact Option.noConfusion hrun
  | succ fuel ih =>
    intro st st' hrun
    simp only [drainValidated] at hrun
    cases hget : st.validatedTypes.getLast? with
    | none =>
      rw [hget] at hrun
      injection hrun with heq
      subst heq
      exact ⟨rfl, ⟨[], by simp⟩, ⟨[], by simp, by simp⟩⟩
    | some m =>
      rw [hget] at hrun
      obtain ⟨hc, ⟨t, ht⟩, ⟨evs, hevs, hno⟩⟩ := ih _ _ hrun
      refine ⟨hc, ⟨(env.firstPassDecl m).newDefined ++ t, ?_⟩,
        ⟨Event.typeValidated m :: evs, ?_, ?_⟩⟩
      · simpa [applyEffects] using ht
      · simpa [applyEffects] using hevs
      · intro e he
        rcases List.mem_cons.mp he with h | h
        · subst h; exact ⟨rfl, rfl⟩
        · exact hno e h

theorem mem_idxRange : ∀ (n s i : Nat), i ∈ idxRange s n → s ≤ i ∧ i < s + n := by
  intro n
  induction n with
  | zero => intro s i h; simp [idxRange] at h
  | succ n ih =>
    intro s i h
    rcases List.mem_cons.mp h with h | h
    · subst h; omega
    · have := ih (s + 1) i h
      omega

/-- C2 (amended): in every iteration of the scheduler loop, the events
appended to the trace are: the external-drain events (no defined-function
body checks, no captures), then the body checks of exactly the index range
`[prev, cur)` of the defined-function sequence in increasing order, then
the capture computations of exactly that range in strictly decreasing
index order (most recently appended first), then the pending-validation
events (again no body checks, no captures).  In particular
`computeCaptures` runs on exactly the functions whose bodies were checked
in that iteration, and only after all of those bodies were checked. -/
theorem schedIter_capture_order (env : Env) (fuel : Nat) (st st' : SchedState)
    (hrun : schedIter env fuel st = some st') :
    ∃ extEv valEv,
      (∀ e ∈ extEv, isBodyEv e = false ∧ isCaptureEv e = false) ∧
      (∀ e ∈ valEv, isBodyEv e = false ∧ isCaptureEv e = false) ∧
      st.currentFunctionIdx ≤ st'.currentFunctionIdx ∧
      st'.trace = st.trace ++ extEv
        ++ ((idxRange st.currentFunctionIdx
              (st'.currentFunctionIdx - st.currentFunctionIdx)).map
            (fun i => Event.bodyChecked i (st'.definedFunctions.getD i 0)))
        ++ ((idxRange st.currentFunctionIdx
              (st'.currentFunctionIdx - st.currentFunctionIdx)).reverse.map
            (fun i => Event.captured i (st'.definedFunctions.getD i 0)))
        ++ valEv := by
  unfold schedIter at hrun
  rcases Option.bind_eq_some.mp hrun with ⟨st1, h1, hrun1⟩
  rcases Option.bind_eq_some.mp hrun1 with ⟨st2, h2, hrun2⟩
  rcases Option.map_eq_some'.mp hrun2 with ⟨st4, h3, hmerge⟩
  obtain ⟨hc1, ⟨t1, ht1⟩, ⟨extEv, hext, hnoext⟩⟩ := drainExt_trace _ _ _ h1
  obtain ⟨hc2, ⟨t2, ht2⟩, hbound, htr2⟩ := drainFns_trace _ _ _ h2
  have hple : st1.currentFunctionIdx ≤ st2.currentFunctionIdx := by omega
  have hcap := captureLoop_trace st1.currentFunctionIdx st2.currentFunctionIdx st2 hple
  rw [hcap] at h3
  obtain ⟨hc4, ⟨t4, ht4⟩, ⟨valEv, hval, hnoval⟩⟩ := drainValidated_trace _ _ _ h3
  simp only at hc4 ht4 hval
  refine ⟨extEv, valEv, hnoext, hnoval, ?_, ?_⟩
  · have : st'.currentFunctionIdx = st4.currentFunctionIdx := by
      rw [← hmerge]; rfl
    omega
  · set k := st1.definedFunctions.length - st1.currentFunctionIdx with hk
    have hcfi' : st'.currentFunctionIdx = st4.currentFunctionIdx := by
      rw [← hmerge]; rfl
    have hkk : st'.currentFunctionIdx - st.currentFunctionIdx = k := by omega
    have hstart : st.currentFunctionIdx = st1.currentFunctionIdx := hc1.symm
    have hdef' : st'.definedFunctions =
        st2.definedFunctions ++ (t4 ++ st4.implicitlyDefinedFunctions) := by
      rw [← hmerge]
      show st4.definedFunctions ++ st4.implicitlyDefinedFunctions = _
      rw [ht4, List.append_assoc]
    have hsame : ∀ i ∈ idxRange st1.currentFunctionIdx k,
        st'.definedFunctions.getD i 0 = st2.definedFunctions.getD i 0 := by
      intro i hi
      obtain ⟨hi1, hi2⟩ := mem_idxRange _ _ _ hi
      have hik : i < st2.definedFunctions.length := by
        rcases hbound with h0 | hbd
        · omega
        · omega
      rw [hdef', getD_extend _ _ _ hik]
    have htrace' : st'.trace = st4.trace := by rw [← hmerge]; rfl
    rw [htrace', hval, htr2, hext, hkk, hstart]
    have hbodymap :
        (idxRange st1.currentFunctionIdx k).map
            (fun i => Event.bodyChecked i (st'.definedFunctions.getD i 0)) =
          (idxRange st1.currentFunctionIdx k).map
            (fun i => Event.bodyChecked i (st2.definedFunctions.getD i 0)) := by
      refine List.map_congr_left (fun i hi => ?_)
      rw [hsame i hi]
    have hcapmap :
        (idxRange st1.currentFunctionIdx k).reverse.map
            (fun i => Event.captured i (st'.definedFunctions.getD i 0)) =
          (idxRange st1.currentFunctionIdx k).reverse.map
            (fun i => Event.captured i (st2.definedFunctions.getD i 0)) := by
      refine List.map_congr_left (fun i hi => ?_)
      rw [hsame i (List.mem_reverse.mp hi)]
    have hkcur : st2.currentFunctionIdx - st1.currentFunctionIdx = k := by omega
    rw [hbodymap, hcapmap, hkcur]

/-- A collaborator call that appends nothing. -/
def noFx : Effects := ⟨[], [], [], []⟩

/-- Concrete collaborator environment for the scheduler witnesses:
checking function `0` discovers one nested function, one external nominal
type, one pending nominal validation and one implicit function; handling
the external nominal pushes another pending validation and stages another
implicit function; first-pass validating nominal `5` appends a function
and pushes another nominal. -/
def envW : Env :=
  { checkFnBody := fun f =>
      if f = 0 then ⟨[1], [EDecl.enominal 7], [5], [2]⟩ else noFx
    handleExternalDecl := fun m => if m = 7 then ⟨[], [], [8], [3]⟩ else noFx
    firstPassDecl := fun m => if m = 5 then ⟨[4], [], [6], []⟩ else noFx }

/-- Initial scheduler state for the witnesses: one defined function and
one external function definition. -/
def stW : SchedState :=
  { definedFunctions := [0]
    externalDefinitions := [EDecl.efun 9]
    validatedTypes := []
    implicitlyDefinedFunctions := []
    currentFunctionIdx := 0
    currentExternalDef := 0
    lastCheckedExternalDefinition := 0
    validatedPushes := 0
    trace := [] }

/-- The state in which the scheduler loop ends on `envW`/`stW`. -/
def stFW : SchedState :=
  { definedFunctions := [0, 1, 4, 2, 3]
    externalDefinitions := [EDecl.efun 9, EDecl.enominal 7]
    validatedTypes := []
    implicitlyDefinedFunctions := []
    currentFunctionIdx := 5
    currentExternalDef := 2
    lastCheckedExternalDefinition := 2
    validatedPushes := 3
    trace := [Event.extProcessed 0, Event.bodyChecked 0 0, Event.captured 0 0,
              Event.typeValidated 5, Event.typeValidated 6, Event.extProcessed 1,
              Event.bodyChecked 1 1, Event.bodyChecked 2 4, Event.bodyChecked 3 2,
              Event.captured 3 2, Event.captured 2 4, Event.captured 1 1,
              Event.typeValidated 8, Event.bodyChecked 4 3, Event.captured 4 3] }

/-- Collaborator environment for the nested-function scenario: checking
the body of function `F = 10` discovers (appends) nested function
`G = 20`, and checking `G`'s body discovers nested function `H = 30`. -/
def envC2 : Env :=
  { checkFnBody := fun f =>
      if f = 10 then ⟨[20], [], [], []⟩
      else if f = 20 then ⟨[30], [], [], []⟩
      else noFx
    handleExternalDecl := fun _ => noFx
    firstPassDecl := fun _ => noFx }

/-- Start state for the nested-function scenario: only `F = 10` is known. -/
def stC2 : SchedState :=
  { definedFunctions := [10]
    externalDefinitions := []
    validatedTypes := []
    implicitlyDefinedFunctions := []
    currentFunctionIdx := 0
    currentExternalDef := 0
    lastCheckedExternalDefinition := 0
    validatedPushes := 0
    trace := [] }

/-- The state after one scheduler iteration on `envC2`/`stC2`: only `F`'s
body was checked and only `F`'s captures were computed; the discovered
`G` sits beyond the snapshot taken at loop entry. -/
def stIterC2 : SchedState :=
  { definedFunctions := [10, 20]
    externalDefinitions := []
    validatedTypes := []
    implicitlyDefinedFunctions := []
    currentFunctionIdx := 1
    currentExternalDef := 0
    lastCheckedExternalDefinition := 0
    validatedPushes := 0
    trace := [Event.bodyChecked 0 10, Event.captured 0 10] }

/-- The full trace of the scheduler run on the nested-function scenario. -/
def trC2 : List Event :=
  [Event.bodyChecked 0 10, Event.captured 0 10,
   Event.bodyChecked 1 20, Event.captured 1 20,
   Event.bodyChecked 2 30, Event.captured 2 30]

/-- C2 counterexample: for `F = 10` (index 0) containing nested `G = 20`
(index 1, appended while checking `F`'s body) containing nested `H = 30`
(index 2, appended while checking `G`'s body), one scheduling pass
computes `F`'s captures first, then `G`'s, then `H`'s — because the
function drain's bound `n` is snapshotted before the bodies are checked,
so each newly discovered function is processed (and its captures
computed) only in a later iteration.  This refutes the claim that `H`'s
captures are computed before `G`'s and `G`'s before `F`'s. -/
theorem scheduler_nested_captures_outer_first :
    (typeCheckFunctionsAndExternalDecls envC2 10 stC2).map SchedState.trace =
      some trC2 ∧
    trC2.indexOf (Event.captured 0 10) < trC2.indexOf (Event.captured 1 20) ∧
    trC2.indexOf (Event.captured 1 20) < trC2.indexOf (Event.captured 2 30) ∧
    ¬ (trC2.indexOf (Event.captured 2 30) < trC2.indexOf (Event.captured 1 20) ∧
       trC2.indexOf (Event.captured 1 20) < trC2.indexOf (Event.captured 0 10)) :=
  ⟨by decide, by decide, by decide, by decide⟩

/-- Witness: the per-iteration capture-order theorem applied to the
concrete environment `envC2` and start state `stC2`. -/
theorem schedIter_capture_order_witness :
    schedIter envC2 10 stC2 = some stIterC2 ∧
    (∃ extEv valEv,
      (∀ e ∈ extEv, isBodyEv e = false ∧ isCaptureEv e = false) ∧
      (∀ e ∈ valEv, isBodyEv e = false ∧ isCaptureEv e = false) ∧
      stC2.currentFunctionIdx ≤ stIterC2.currentFunctionIdx ∧
      stIterC2.trace = stC2.trace ++ extEv
        ++ ((idxRange stC2.currentFunctionIdx
              (stIterC2.currentFunctionIdx - stC2.currentFunctionIdx)).map
            (fun i => Event.bodyChecked i (stIterC2.definedFunctions.getD i 0)))
        ++ ((idxRange stC2.currentFunctionIdx
              (stIterC2.currentFunctionIdx - stC2.currentFunctionIdx)).reverse.map
            (fun i => Event.captured i (stIterC2.definedFunctions.getD i 0)))
        ++ valEv) :=
  ⟨by decide, schedIter_capture_order envC2 10 stC2 stIterC2 (by decide)⟩

/-- Witness: the scheduler-drain theorem applied to the concrete
environment `envW` and start state `stW`. -/
theorem scheduler_loop_drains_all_work_witness :
    (stW.trace = [] ∧ stW.validatedPushes = stW.validatedTypes.length ∧
     stW.lastCheckedExternalDefinition ≤ stW.externalDefinitions.length ∧
     typeCheckFunctionsAndExternalDecls envW 10 stW = some stFW) ∧
    (stFW.currentFunctionIdx = stFW.definedFunctions.length ∧
     stFW.currentExternalDef = stFW.externalDefinitions.length ∧
     stFW.validatedTypes = [] ∧
     stFW.implicitlyDefinedFunctions = [] ∧
     stFW.lastCheckedExternalDefinition = stFW.externalDefinitions.length ∧
     (∀ i, i < stFW.definedFunctions.length → bodyCount i stFW.trace = 1) ∧
     (∀ i, stW.lastCheckedExternalDefinition ≤ i →
       i < stFW.externalDefinitions.length → extCount i stFW.trace = 1) ∧
     stFW.validatedPushes = valCount stFW.trace) :=
  ⟨⟨rfl, rfl, by decide, by decide⟩,
   scheduler_loop_drains_all_work envW 10 stW stFW rfl rfl (by decide) (by decide)⟩

/-! ## The extension binder (`bindExtensionDecl`) -/

/-- A generic parameter list: its own parameter count (`size()`) and the
chain of outer lists it links to (`setOuterParameters`), recorded as the
sizes of the chained lists, innermost first. -/
structure GPList where
  size : Nat
  outerSizes : List Nat
  deriving DecidableEq

/-- The size chain denoted by an optional outer generic parameter list. -/
def outerChain : Option GPList → List Nat
  | none => []
  | some o => o.size :: o.outerSizes

/-- A nominal type declaration: identity plus its generic parameter list
(`getGenericParams()`), recorded by its size; `none` for a non-generic
declaration. -/
structure NomDecl where
  id : Nat
  genericParams : Option Nat
  deriving DecidableEq

/-- The resolved types the binder distinguishes: `NominalType`,
`UnboundGenericType`, the `ErrorType` sentinel, and every other resolved
kind. -/
inductive Ty where
  | nominalTy (d : NomDecl)
  | unboundGenericTy (d : NomDecl)
  | errorTy
  | otherTy
  deriving DecidableEq

/-- `Type::getAnyNominal()` restricted to the kinds the binder can see. -/
def Ty.getAnyNominal : Ty → Option NomDecl
  | .nominalTy d => some d
  | .unboundGenericTy d => some d
  | _ => none

/-- What `validateType` bound a path component to: a type
(`getBoundType`), a declaration (`getBoundDecl`, already narrowed by
`dyn_cast<NominalTypeDecl>` to an optional nominal), or nothing. -/
inductive BoundTo where
  | boundType (t : Ty)
  | boundDecl (nd : Option NomDecl)
  | unbound
  deriving DecidableEq

/-- Lines 216–225: the nominal type declaration a component refers to —
through `UnboundGenericType` or `NominalType` when a type was bound,
through `dyn_cast<NominalTypeDecl>` when a declaration was bound. -/
def typeDeclOf : BoundTo → Option NomDecl
  | .boundType (Ty.unboundGenericTy d) => some d
  | .boundType (Ty.nominalTy d) => some d
  | .boundType _ => none
  | .boundDecl nd => nd
  | .unbound => none

/-- One component of the extension's dotted name path
(`ExtensionDecl::RefComponent`): a name and an optional written generic
parameter list. -/
structure RefComponent where
  name : String
  genericParams : Option GPList
  deriving DecidableEq

/-- The extension declaration as the binder sees it: its path components,
its extended type (`none` before binding), and its invalid mark. -/
structure ExtensionDecl where
  refComponents : List RefComponent
  extendedType : Option Ty
  invalid : Bool
  deriving DecidableEq

/-- The diagnostics `bindExtensionDecl` can emit, with their payloads. -/
inductive Diag where
  | extensionMetatype
  | extensionGenericParamsForNonGeneric (name : String)
  | extensionGenericParamsForNonGenericType (d : NomDecl)
  | extendedTypeHere (d : NomDecl)
  | extensionGenericWrongNumberOfParameters
      (d : NomDecl) (excess : Bool) (numHave numExpected : Nat)
  | nonNominalExtension (t : Ty)
  deriving DecidableEq

/-- Outcome of the per-component generic-parameter walk: either aborted at
an arity mismatch (lines 271–282, the only early `return` of the walk) or
completed with the chained outer parameter list. -/
inductive WalkResult where
  | aborted (comps : List RefComponent) (diags : List Diag)
  | completed (comps : List RefComponent) (diags : List Diag) (outer : Option GPList)
  deriving DecidableEq

/-- Prepend one processed component and its diagnostics to a walk result. -/
def WalkResult.consComp (ref : RefComponent) (ds : List Diag) : WalkResult → WalkResult
  | .aborted comps diags => .aborted (ref :: comps) (ds ++ diags)
  | .completed comps diags outer => .completed (ref :: comps) (ds ++ diags) outer

/-- Lines 213–287: walk the path components left to right with the running
outer generic-parameter list.  A component with no nominal type but
written parameters drops them with a diagnostic and continues; a generic
target with no written parameters continues; a non-generic target with
written parameters drops them with two diagnostics and continues; equal
arities chain the lists; differing arities abort the whole walk. -/
def walkComponents (outer : Option GPList) :
    List RefComponent → List BoundTo → WalkResult
  | [], _ => WalkResult.completed [] [] outer
  | ref :: rest, bs =>
    match typeDeclOf (bs.headD BoundTo.unbound) with
    | none =>
      match ref.genericParams with
      | some _ =>
        WalkResult.consComp { ref with genericParams := none }
          [Diag.extensionGenericParamsForNonGeneric ref.name]
          (walkComponents outer rest (bs.drop 1))
      | none => WalkResult.consComp ref [] (walkComponents outer rest (bs.drop 1))
    | some td =>
      match td.genericParams, ref.genericParams with
      | some _, none => WalkResult.consComp ref [] (walkComponents outer rest (bs.drop 1))
      | none, some _ =>
        WalkResult.consComp { ref with genericParams := none }
          [Diag.extensionGenericParamsForNonGenericType td, Diag.extendedTypeHere td]
          (walkComponents outer rest (bs.drop 1))
      | none, none => WalkResult.consComp ref [] (walkComponents outer rest (bs.drop 1))
      | some p, some g =>
        if g.size ≠ p then
          WalkResult.aborted (ref :: rest)
            [Diag.extensionGenericWrongNumberOfParameters td
              (decide (p < g.size)) g.size p]
        else
          WalkResult.consComp
            { ref with genericParams := some (GPList.mk g.size (outerChain outer)) }
            [] (walkComponents (some (GPList.mk g.size (outerChain outer))) rest (bs.drop 1))

/-- What `bindExtensionDecl` did: the updated extension, the diagnostics
it emitted itself, the nominal type whose extension list the extension
was appended to (`addExtension`), and whether the `validateType`
collaborator was invoked at all. -/
structure BindResult where
  ext : ExtensionDecl
  diags : List Diag
  registeredTo : Option NomDecl
  validateCalled : Bool
  deriving DecidableEq

/-- Lines 190–202: does the component-building loop find a reference to
`.Type` past the first component (`ref.Name == Context.Id_Type &&
!components.empty()`)?  The loop pushes exactly one component per
iteration, so `components.empty()` holds exactly at the first one. -/
def findsMetatypeRef (comps : List RefComponent) : Bool :=
  match comps with
  | [] => false
  | _ :: rest => rest.any (fun r => r.name = "Type")

/-- `bindExtensionDecl` (lines 183–301).  The `validateType` collaborator
is modelled by its observable result: `none` when it returned an error,
otherwise the per-component bindings and the final resolved type. -/
def bindExtensionDecl (validation : Option (List BoundTo × Ty))
    (ED : ExtensionDecl) : BindResult :=
  if ED.extendedType.isSome then
    ⟨ED, [], none, false⟩
  else if findsMetatypeRef ED.refComponents then
    ⟨{ ED with invalid := true, extendedType := some Ty.errorTy },
      [Diag.extensionMetatype], none, false⟩
  else
    match validation with
    | none =>
      ⟨{ ED with invalid := true, extendedType := some Ty.errorTy }, [], none, true⟩
    | some (bindings, extendedTy) =>
      match walkComponents none ED.refComponents bindings with
      | WalkResult.aborted comps diags =>
        ⟨{ ED with refComponents := comps, invalid := true, extendedType := some Ty.errorTy },
          diags, none, true⟩
      | WalkResult.completed comps diags _ =>
        match extendedTy with
        | Ty.nominalTy d =>
          ⟨{ ED with refComponents := comps, extendedType := some (Ty.nominalTy d) },
            diags, some d, true⟩
        | Ty.unboundGenericTy d =>
          ⟨{ ED with refComponents := comps, extendedType := some (Ty.unboundGenericTy d) },
            diags, some d, true⟩
        | t =>
          ⟨{ ED with refComponents := comps, invalid := true, extendedType := some Ty.errorTy },
            diags ++ [Diag.nonNominalExtension t], none, true⟩

/-- Component `i` has written generic parameters, its resolved nominal
type declaration also has generic parameters, and the two counts differ —
the one condition that aborts the whole walk (lines 271–282). -/
def arityMismatchAt (comps : List RefComponent) (bs : List BoundTo) (i : Nat) : Prop :=
  ∃ ref td g p, comps.get? i = some ref ∧
    typeDeclOf (bs.getD i BoundTo.unbound) = some td ∧
    ref.genericParams = some g ∧ td.genericParams = some p ∧ g.size ≠ p

theorem consComp_completed (r : RefComponent) (ds : List Diag)
    (a : List RefComponent) (b : List Diag) (c : Option GPList) :
    WalkResult.consComp r ds (WalkResult.completed a b c) =
      WalkResult.completed (r :: a) (ds ++ b) c := rfl

theorem consComp_aborted (r : RefComponent) (ds : List Diag)
    (a : List RefComponent) (b : List Diag) :
    WalkResult.consComp r ds (WalkResult.aborted a b) =
      WalkResult.aborted (r :: a) (ds ++ b) := rfl

theorem getD_drop_one (bs : List BoundTo) (i : Nat) :
    (bs.drop 1).getD i BoundTo.unbound = bs.getD (i + 1) BoundTo.unbound := by
  cases bs <;> simp [List.getD]

theorem headD_eq_getD_zero (bs : List BoundTo) :
    bs.headD BoundTo.unbound = bs.getD 0 BoundTo.unbound := by
  cases bs <;> rfl

theorem arityMismatchAt_succ (r : RefComponent) (rest : List RefComponent)
    (bs : List BoundTo) (i : Nat) :
    arityMismatchAt (r :: rest) bs (i + 1) ↔
      arityMismatchAt rest (bs.drop 1) i := by
  simp [arityMismatchAt, getD_drop_one]

theorem arityMismatchAt_zero (r : RefComponent) (rest : List RefComponent)
    (bs : List BoundTo) :
    arityMismatchAt (r :: rest) bs 0 ↔
      ∃ td g p, typeDeclOf (bs.headD BoundTo.unbound) = some td ∧
        r.genericParams = some g ∧ td.genericParams = some p ∧ g.size ≠ p := by
  rw [headD_eq_getD_zero]
  simp [arityMismatchAt]

/-- Did the walk run to completion? -/
def WalkResult.isCompleted : WalkResult → Bool
  | .completed _ _ _ => true
  | .aborted _ _ => false

theorem isCompleted_consComp (r : RefComponent) (ds : List Diag) (w : WalkResult) :
    (WalkResult.consComp r ds w).isCompleted = w.isCompleted := by
  cases w <;> rfl

/-- If no component has mismatched generic-parameter arity, the walk runs
to completion (it never aborts for any other reason). -/
theorem walk_completed_of_no_mismatch :
    ∀ (comps : List RefComponent) (bs : List BoundTo) (outer : Option GPList),
      (∀ i, ¬ arityMismatchAt comps bs i) →
      (walkComponents outer comps bs).isCompleted = true := by
  intro comps
  induction comps with
  | nil => intro bs outer _; rfl
  | cons ref rest ih =>
    intro bs outer h
    have hrest : ∀ outer2 : Option GPList,
        (walkComponents outer2 rest (bs.drop 1)).isCompleted = true := by
      intro outer2
      refine ih (bs.drop 1) outer2 (fun i hm => ?_)
      exact h (i + 1) ((arityMismatchAt_succ ref rest bs i).mpr hm)
    simp only [walkComponents]
    cases htd : typeDeclOf (bs.headD BoundTo.unbound) with
    | none =>
      cases href : ref.genericParams <;>
        simp only [isCompleted_consComp] <;> exact hrest outer
    | some td =>
      cases htdg : td.genericParams with
      | some p =>
        cases href : ref.genericParams with
        | none => simp only [htdg, href, isCompleted_consComp]; exact hrest outer
        | some g =>
          have heq : ¬ g.size ≠ p := by
            intro hne
            exact h 0 ((arityMismatchAt_zero ref rest bs).mpr ⟨td, g, p, htd, href, htdg, hne⟩)
          simp only [htdg, href, if_neg heq, isCompleted_consComp]
          exact hrest (some (GPList.mk g.size (outerChain outer)))
      | none =>
        cases href : ref.genericParams <;>
          simp only [htdg, href, isCompleted_consComp] <;> exact hrest outer

/-- At the first component with mismatched arity the walk aborts: the
processed prefix has exactly that many components, the mismatch
diagnostic (with its excess/deficit direction) is the last diagnostic
emitted, and the components from the mismatch on are left untouched. -/
theorem walk_aborted_at_first_mismatch :
    ∀ (j : Nat) (comps : List RefComponent) (bs : List BoundTo)
      (outer : Option GPList) (ref : RefComponent) (td : NomDecl) (g : GPList) (p : Nat),
      comps.get? j = some ref →
      typeDeclOf (bs.getD j BoundTo.unbound) = some td →
      ref.genericParams = some g → td.genericParams = some p → g.size ≠ p →
      (∀ i, i < j → ¬ arityMismatchAt comps bs i) →
      ∃ pre preDiags, pre.length = j ∧
        walkComponents outer comps bs =
          WalkResult.aborted (pre ++ comps.drop j)
            (preDiags ++ [Diag.extensionGenericWrongNumberOfParameters td
              (decide (p < g.size)) g.size p]) := by
  intro j
  induction j with
  | zero =>
    intro comps bs outer ref td g p hget htd hrefg htdg hne _
    cases comps with
    | nil => simp at hget
    | cons r rest =>
      have hr : r = ref := by simpa using hget
      subst hr
      refine ⟨[], [], rfl, ?_⟩
      simp only [walkComponents, headD_eq_getD_zero, htd, htdg, hrefg, if_pos hne,
        List.drop_zero, List.nil_append]
  | succ j ih =>
    intro comps bs outer ref td g p hget htd hrefg htdg hne hbefore
    cases comps with
    | nil => simp at hget
    | cons r rest =>
      have hget' : rest.get? j = some ref := by simpa using hget
      have htd' : typeDeclOf ((bs.drop 1).getD j BoundTo.unbound) = some td := by
        rw [getD_drop_one]; exact htd
      have hbefore' : ∀ i, i < j → ¬ arityMismatchAt rest (bs.drop 1) i := by
        intro i hi hm
        exact hbefore (i + 1) (by omega) ((arityMismatchAt_succ r rest bs i).mpr hm)
      have step : ∀ (r' : RefComponent) (ds : List Diag) (outer2 : Option GPList),
          ∃ pre preDiags, pre.length = j + 1 ∧
            WalkResult.consComp r' ds (walkComponents outer2 rest (bs.drop 1)) =
              WalkResult.aborted (pre ++ (r :: rest).drop (j + 1))
                (preDiags ++ [Diag.extensionGenericWrongNumberOfParameters td
                  (decide (p < g.size)) g.size p]) := by
        intro r' ds outer2
        obtain ⟨pre, preDiags, hlen, hw⟩ :=
          ih rest (bs.drop 1) outer2 ref td g p hget' htd' hrefg htdg hne hbefore'
        refine ⟨r' :: pre, ds ++ preDiags, by simp [hlen], ?_⟩
        rw [hw, consComp_aborted]
        simp [List.append_assoc]
      simp only [walkComponents]
      cases htd0 : typeDeclOf (bs.headD BoundTo.unbound) with
      | none =>
        cases href0 : r.genericParams <;> simp only [href0] <;> exact step _ _ outer
      | some td0 =>
        cases htdg0 : td0.genericParams with
        | some p0 =>
          cases href0 : r.genericParams with
          | none => simp only [htdg0, href0]; exact step _ _ outer
          | some g0 =>
            have heq : ¬ g0.size ≠ p0 := by
              intro hne0
              exact hbefore 0 (by omega)
                ((arityMismatchAt_zero r rest bs).mpr ⟨td0, g0, p0, htd0, href0, htdg0, hne0⟩)
            simp only [htdg0, href0, if_neg heq]
            exact step _ _ (some (GPList.mk g0.size (outerChain outer)))
        | none =>
          cases href0 : r.genericParams <;> simp only [htdg0, href0] <;>
            exact step _ _ outer

theorem findsMetatypeRef_false (comps : List RefComponent)
    (h : ∀ r ∈ comps.drop 1, r.name ≠ "Type") :
    findsMetatypeRef comps = false := by
  cases comps with
  | nil => rfl
  | cons c rest =>
    simp only [findsMetatypeRef]
    rw [List.any_eq_false]
    intro r hr
    simpa using h r (by simpa using hr)

theorem findsMetatypeRef_true (comps : List RefComponent)
    (h : ∃ r ∈ comps.drop 1, r.name = "Type") :
    findsMetatypeRef comps = true := by
  cases comps with
  | nil => simp at h
  | cons c rest =>
    obtain ⟨r, hr, hname⟩ := h
    simp only [findsMetatypeRef]
    rw [List.any_eq_true]
    exact ⟨r, by simpa using hr, by simpa using hname⟩

/-- C10: a component other than the first named `Type` makes
`bindExtensionDecl` diagnose an attempted metatype extension, mark the
extension invalid, set its extended type to the error sentinel, and
return before the type-validation collaborator is invoked. -/
theorem bindExtension_metatype_component (validation : Option (List BoundTo × Ty))
    (ED : ExtensionDecl)
    (hun : ED.extendedType = none)
    (hmeta : ∃ r ∈ ED.refComponents.drop 1, r.name = "Type") :
    bindExtensionDecl validation ED =
      ⟨{ ED with invalid := true, extendedType := some Ty.errorTy },
        [Diag.extensionMetatype], none, false⟩ := by
  unfold bindExtensionDecl
  rw [hun]
  simp only [Option.isSome_none, Bool.false_eq_true, if_false,
    findsMetatypeRef_true ED.refComponents hmeta, if_true]

/-- Extension and validation result used across the binder witnesses:
extending the non-generic nominal `S` with one written generic
parameter. -/
def Snom : NomDecl := ⟨0, none⟩

/-- `extension S<T> { ... }` before binding: one path component carrying
one generic parameter. -/
def EDc6 : ExtensionDecl := ⟨[⟨"S", some ⟨1, []⟩⟩], none, false⟩

/-- `validateType` result for `EDc6`: the component and the whole path
resolve to the non-generic nominal `S`. -/
def valc6 : Option (List BoundTo × Ty) :=
  some ([BoundTo.boundType (Ty.nominalTy Snom)], Ty.nominalTy Snom)

/-- Witness for the metatype path: `extension A.Type` aborts before
validation. -/
def EDmt : ExtensionDecl := ⟨[⟨"A", none⟩, ⟨"Type", none⟩], none, false⟩

/-- Witness: the metatype theorem applied to the concrete extension
`EDmt` (`extension A.Type`). -/
theorem bindExtension_metatype_component_witness :
    EDmt.extendedType = none ∧
    (∃ r ∈ EDmt.refComponents.drop 1, r.name = "Type") ∧
    bindExtensionDecl valc6 EDmt =
      ⟨{ EDmt with invalid := true, extendedType := some Ty.errorTy },
        [Diag.extensionMetatype], none, false⟩ :=
  ⟨rfl, by decide,
   bindExtension_metatype_component valc6 EDmt rfl (by decide)⟩

/-- C4: `bindExtensionDecl` resolves an extension's target exactly once
and never leaves it unresolved.  A call on an already-bound extension is a
no-op (nothing changes, no diagnostics, no registration, no validation).
On a previously unbound extension every return path sets the extended
type: either the error sentinel together with the invalid mark and no
registration (every failure path, including a final resolved type that is
neither nominal nor unbound-generic), or the resolved nominal /
unbound-generic type with the extension registered on that nominal's
extension list and the invalid mark untouched. -/
theorem bindExtension_resolves_exactly_once
    (validation : Option (List BoundTo × Ty)) (ED : ExtensionDecl) :
    (ED.extendedType.isSome = true →
      bindExtensionDecl validation ED = ⟨ED, [], none, false⟩) ∧
    (ED.extendedType = none →
      (bindExtensionDecl validation ED).ext.extendedType.isSome = true ∧
      (((bindExtensionDecl validation ED).ext.invalid = true ∧
        (bindExtensionDecl validation ED).ext.extendedType = some Ty.errorTy ∧
        (bindExtensionDecl validation ED).registeredTo = none) ∨
       (∃ d, ((bindExtensionDecl validation ED).ext.extendedType =
                some (Ty.nominalTy d) ∨
              (bindExtensionDecl validation ED).ext.extendedType =
                some (Ty.unboundGenericTy d)) ∧
         (bindExtensionDecl validation ED).registeredTo = some d ∧
         (bindExtensionDecl validation ED).ext.invalid = ED.invalid))) := by
  constructor
  · intro h
    unfold bindExtensionDecl
    rw [if_pos h]
  · intro h
    unfold bindExtensionDecl
    rw [h]
    simp only [Option.isSome_none, Bool.false_eq_true, if_false]
    by_cases hm : findsMetatypeRef ED.refComponents
    · rw [if_pos hm]
      exact ⟨rfl, Or.inl ⟨rfl, rfl, rfl⟩⟩
    · rw [if_neg hm]
      cases validation with
      | none => exact ⟨rfl, Or.inl ⟨rfl, rfl, rfl⟩⟩
      | some pr =>
        obtain ⟨bs, t⟩ := pr
        dsimp only
        cases hw : walkComponents none ED.refComponents bs with
        | aborted comps diags => exact ⟨rfl, Or.inl ⟨rfl, rfl, rfl⟩⟩
        | completed comps diags o =>
          cases t with
          | nominalTy d => exact ⟨rfl, Or.inr ⟨d, Or.inl rfl, rfl, rfl⟩⟩
          | unboundGenericTy d => exact ⟨rfl, Or.inr ⟨d, Or.inr rfl, rfl, rfl⟩⟩
          | errorTy => exact ⟨rfl, Or.inl ⟨rfl, rfl, rfl⟩⟩
          | otherTy => exact ⟨rfl, Or.inl ⟨rfl, rfl, rfl⟩⟩

/-- Witness: the resolve-exactly-once theorem applied to the concrete
unbound extension `EDc6` with validation result `valc6`. -/
theorem bindExtension_resolves_exactly_once_witness :
    EDc6.extendedType = none ∧
    ((bindExtensionDecl valc6 EDc6).ext.extendedType.isSome = true ∧
     (((bindExtensionDecl valc6 EDc6).ext.invalid = true ∧
       (bindExtensionDecl valc6 EDc6).ext.extendedType = some Ty.errorTy ∧
       (bindExtensionDecl valc6 EDc6).registeredTo = none) ∨
      (∃ d, ((bindExtensionDecl valc6 EDc6).ext.extendedType =
               some (Ty.nominalTy d) ∨
             (bindExtensionDecl valc6 EDc6).ext.extendedType =
               some (Ty.unboundGenericTy d)) ∧
        (bindExtensionDecl valc6 EDc6).registeredTo = some d ∧
        (bindExtensionDecl valc6 EDc6).ext.invalid = EDc6.invalid))) :=
  ⟨rfl, (bindExtension_resolves_exactly_once valc6 EDc6).2 rfl⟩

/-- C3: when the first component whose written generic parameters and
resolved nominal type both carry parameter lists of different sizes is
reached, `bindExtensionDecl` emits the arity diagnostic carrying the
direction of the mismatch (`numHave > numExpected`) as its last
diagnostic, marks the extension invalid, sets the extended type to the
error sentinel, registers nothing, and aborts the walk (every component
from the mismatch on is left untouched); and this is the only
per-component generic-parameter check that invalidates the extension —
with no arity mismatch anywhere, a walk over a path resolving to a
nominal or unbound-generic type leaves the invalid mark unchanged. -/
theorem bindExtension_arity_mismatch_aborts
    (bs : List BoundTo) (finalTy : Ty) (ED : ExtensionDecl)
    (j : Nat) (ref : RefComponent) (td : NomDecl) (g : GPList) (p : Nat)
    (hun : ED.extendedType = none)
    (hmeta : ∀ r ∈ ED.refComponents.drop 1, r.name ≠ "Type") :
    ((ED.refComponents.get? j = some ref →
      typeDeclOf (bs.getD j BoundTo.unbound) = some td →
      ref.genericParams = some g →
      td.genericParams = some p →
      g.size ≠ p →
      (∀ i, i < j → ¬ arityMismatchAt ED.refComponents bs i) →
      (bindExtensionDecl (some (bs, finalTy)) ED).ext.invalid = true ∧
      (bindExtensionDecl (some (bs, finalTy)) ED).ext.extendedType = some Ty.errorTy ∧
      (bindExtensionDecl (some (bs, finalTy)) ED).registeredTo = none ∧
      (bindExtensionDecl (some (bs, finalTy)) ED).diags.getLast? =
        some (Diag.extensionGenericWrongNumberOfParameters td
          (decide (p < g.size)) g.size p) ∧
      (∀ i, j ≤ i →
        (bindExtensionDecl (some (bs, finalTy)) ED).ext.refComponents.get? i =
          ED.refComponents.get? i)) ∧
     ((∀ i, ¬ arityMismatchAt ED.refComponents bs i) →
      finalTy.getAnyNominal.isSome = true →
      (bindExtensionDecl (some (bs, finalTy)) ED).ext.invalid = ED.invalid)) := by
  constructor
  · intro h1 h2 h3 h4 h5 h6
    obtain ⟨pre, preDiags, hlen, hw⟩ :=
      walk_aborted_at_first_mismatch j ED.refComponents bs none ref td g p h1 h2 h3 h4 h5 h6
    unfold bindExtensionDecl
    rw [hun]
    simp only [Option.isSome_none, Bool.false_eq_true, if_false,
      findsMetatypeRef_false ED.refComponents hmeta]
    rw [hw]
    refine ⟨rfl, rfl, rfl, ?_, ?_⟩
    · exact List.getLast?_concat _
    · intro i hi
      show (pre ++ ED.refComponents.drop j).get? i = ED.refComponents.get? i
      rw [List.get?_append_right (by omega : pre.length ≤ i), hlen, List.get?_drop]
      congr 1
      omega
  · intro hnom hsome
    have hcompl := walk_completed_of_no_mismatch ED.refComponents bs none hnom
    unfold bindExtensionDecl
    rw [hun]
    simp only [Option.isSome_none, Bool.false_eq_true, if_false,
      findsMetatypeRef_false ED.refComponents hmeta]
    cases hw : walkComponents none ED.refComponents bs with
    | aborted c d =>
      rw [hw] at hcompl
      simp [WalkResult.isCompleted] at hcompl
    | completed c d o =>
      cases finalTy with
      | nominalTy dd => rfl
      | unboundGenericTy dd => rfl
      | errorTy => simp [Ty.getAnyNominal] at hsome
      | otherTy => simp [Ty.getAnyNominal] at hsome

/-- The 2-parameter generic nominal `T` for the arity-mismatch witness. -/
def T2 : NomDecl := ⟨1, some 2⟩

/-- `extension T<A> { ... }` before binding: one component with one
written generic parameter extending the 2-parameter generic `T`. -/
def EDar : ExtensionDecl := ⟨[⟨"T", some ⟨1, []⟩⟩], none, false⟩

/-- `validateType` bindings for `EDar`. -/
def valarBs : List BoundTo := [BoundTo.boundType (Ty.unboundGenericTy T2)]

/-- Witness: the arity-mismatch theorem applied to the concrete deficit
scenario `extension T<A>` over the 2-parameter generic `T` (so the
reported direction is deficit, `excess = false`). -/
theorem bindExtension_arity_mismatch_aborts_witness :
    (EDar.extendedType = none ∧
     EDar.refComponents.get? 0 = some ⟨"T", some ⟨1, []⟩⟩ ∧
     typeDeclOf (valarBs.getD 0 BoundTo.unbound) = some T2 ∧
     T2.genericParams = some 2 ∧ (1 : Nat) ≠ 2) ∧
    ((bindExtensionDecl (some (valarBs, Ty.unboundGenericTy T2)) EDar).ext.invalid = true ∧
     (bindExtensionDecl (some (valarBs, Ty.unboundGenericTy T2)) EDar).ext.extendedType =
       some Ty.errorTy ∧
     (bindExtensionDecl (some (valarBs, Ty.unboundGenericTy T2)) EDar).registeredTo = none ∧
     (bindExtensionDecl (some (valarBs, Ty.unboundGenericTy T2)) EDar).diags.getLast? =
       some (Diag.extensionGenericWrongNumberOfParameters T2 false 1 2) ∧
     (∀ i, 0 ≤ i →
       (bindExtensionDecl (some (valarBs, Ty.unboundGenericTy T2)) EDar).ext.refComponents.get? i =
         EDar.refComponents.get? i)) :=
  ⟨⟨rfl, rfl, rfl, rfl, by decide⟩,
   (bindExtension_arity_mismatch_aborts valarBs (Ty.unboundGenericTy T2) EDar 0
      ⟨"T", some ⟨1, []⟩⟩ T2 ⟨1, []⟩ 2 rfl (by decide)).1
     rfl rfl rfl rfl (by decide) (fun i hi => absurd hi (Nat.not_lt_zero i))⟩

/-- C6 counterexample: extending the non-generic nominal `S` with a
1-parameter extension (`extension S<T>`) does not mark the extension
invalid and does not set its extended type to the error sentinel: the
binder emits the parameters-on-non-generic-type diagnostic plus its note,
drops the component's parameters, and binds the extension to `S`. -/
theorem bindExtension_nongeneric_params_not_invalidated :
    (bindExtensionDecl valc6 EDc6).ext.invalid = false ∧
    (bindExtensionDecl valc6 EDc6).ext.extendedType = some (Ty.nominalTy Snom) ∧
    (bindExtensionDecl valc6 EDc6).registeredTo = some Snom ∧
    (bindExtensionDecl valc6 EDc6).diags =
      [Diag.extensionGenericParamsForNonGenericType Snom, Diag.extendedTypeHere Snom] ∧
    ¬ ((bindExtensionDecl valc6 EDc6).ext.invalid = true ∧
       (bindExtensionDecl valc6 EDc6).ext.extendedType = some Ty.errorTy) := by
  refine ⟨rfl, rfl, rfl, rfl, ?_⟩
  intro ⟨hinv, _⟩
  exact Bool.noConfusion hinv

/-- C6 (amended): extending a non-generic type with a one-component
extension supplying generic parameters emits the
parameters-on-non-generic-type diagnostic together with a note pointing
at the extended type, drops the component's generic parameters, binds the
extension to the type (extended type set to the nominal, extension
registered on it), and leaves the invalid mark unchanged. -/
theorem bindExtension_nongeneric_params_dropped (nm : String) (g : GPList)
    (td : NomDecl) (ED : ExtensionDecl)
    (hun : ED.extendedType = none)
    (hcomps : ED.refComponents = [⟨nm, some g⟩])
    (htd : td.genericParams = none) :
    bindExtensionDecl (some ([BoundTo.boundType (Ty.nominalTy td)], Ty.nominalTy td)) ED =
      ⟨⟨[⟨nm, none⟩], some (Ty.nominalTy td), ED.invalid⟩,
        [Diag.extensionGenericParamsForNonGenericType td, Diag.extendedTypeHere td],
        some td, true⟩ := by
  unfold bindExtensionDecl
  rw [hun, hcomps]
  simp only [Option.isSome_none, Bool.false_eq_true, if_false]
  have hfm : findsMetatypeRef [⟨nm, some g⟩] = false := rfl
  rw [hfm]
  simp only [Bool.false_eq_true, if_false]
  simp only [walkComponents, List.headD, typeDeclOf, htd, WalkResult.consComp,
    List.append_nil]

/-- Witness: the amended non-generic-with-parameters theorem applied to
the concrete `extension S<T>` scenario. -/
theorem bindExtension_nongeneric_params_dropped_witness :
    (EDc6.extendedType = none ∧
     EDc6.refComponents = [⟨"S", some ⟨1, []⟩⟩] ∧
     Snom.genericParams = none) ∧
    bindExtensionDecl valc6 EDc6 =
      ⟨⟨[⟨"S", none⟩], some (Ty.nominalTy Snom), false⟩,
        [Diag.extensionGenericParamsForNonGenericType Snom, Diag.extendedTypeHere Snom],
        some Snom, true⟩ :=
  ⟨⟨rfl, rfl, rfl⟩,
   bindExtension_nongeneric_params_dropped "S" ⟨1, []⟩ Snom EDc6 rfl rfl rfl⟩

/-! ## Capability lookup (`getProtocol`, `getLiteralProtocol`) and the
conformance pre-filter (`mayConformToKnownProtocol`) -/

/-- The compiler-known capabilities the literal resolver can request. -/
inductive KnownProtocolKind where
  | arrayLiteralConvertible
  | dictionaryLiteralConvertible
  | nilLiteralConvertible
  | integerLiteralConvertible
  | floatLiteralConvertible
  | booleanLiteralConvertible
  | characterLiteralConvertible
  | extendedGraphemeClusterLiteralConvertible
  | stringLiteralConvertible
  | stringInterpolationConvertible
  deriving DecidableEq

/-- A protocol declaration as `getProtocol` observes it: whether it
already has a type, and whether validating it (`validateDecl`) leaves it
invalid. -/
structure ProtocolM where
  id : Nat
  hasType : Bool
  invalidAfterValidation : Bool
  deriving DecidableEq

/-- The one diagnostic `getProtocol` can emit. -/
inductive PDiag where
  | missingProtocol (k : KnownProtocolKind)
  deriving DecidableEq

/-- `TypeChecker::getProtocol` (lines 69–83): look the capability up in
the registry; when absent, diagnose `missing_protocol` — but only when
the lookup location is valid — and return null; when present but not yet
typed, validate it and return null if that leaves it invalid. -/
def getProtocol (registry : KnownProtocolKind → Option ProtocolM)
    (locValid : Bool) (kind : KnownProtocolKind) :
    Option ProtocolM × List PDiag :=
  match registry kind with
  | none => (none, if locValid then [PDiag.missingProtocol kind] else [])
  | some protocol =>
    if !protocol.hasType then
      if protocol.invalidAfterValidation then (none, [])
      else (some protocol, [])
    else (some protocol, [])

/-- `MagicIdentifierLiteralExpr::Kind`. -/
inductive MagicIdentKind where
  | file
  | function
  | line
  | column
  deriving DecidableEq

/-- The expression kinds `getLiteralProtocol` distinguishes.
`nonLiteralExpr` stands for every expression that is neither collection
sugar nor a `LiteralExpr` subclass (the `!isa<LiteralExpr>` gate at line
94). -/
inductive Expr where
  | arrayExpr
  | dictionaryExpr
  | nilLiteral
  | integerLiteral
  | floatLiteral
  | booleanLiteral
  | characterLiteral
  | stringLiteral (isSingleExtendedGraphemeCluster : Bool)
  | interpolatedStringLiteral
  | magicIdentifierLiteral (k : MagicIdentKind)
  | nonLiteralExpr
  deriving DecidableEq

/-- `TypeChecker::getLiteralProtocol` (lines 85–146), parameterised by the
`getProtocol` collaborator: each branch requests the capability the
dispatch chain in the source requests. -/
def getLiteralProtocol {α : Type} (gp : KnownProtocolKind → Option α) :
    Expr → Option α
  | Expr.arrayExpr => gp KnownProtocolKind.arrayLiteralConvertible
  | Expr.dictionaryExpr => gp KnownProtocolKind.dictionaryLiteralConvertible
  | Expr.nonLiteralExpr => none
  | Expr.nilLiteral => gp KnownProtocolKind.nilLiteralConvertible
  | Expr.integerLiteral => gp KnownProtocolKind.integerLiteralConvertible
  | Expr.floatLiteral => gp KnownProtocolKind.floatLiteralConvertible
  | Expr.booleanLiteral => gp KnownProtocolKind.booleanLiteralConvertible
  | Expr.characterLiteral => gp KnownProtocolKind.characterLiteralConvertible
  | Expr.stringLiteral true => gp KnownProtocolKind.extendedGraphemeClusterLiteralConvertible
  | Expr.stringLiteral false => gp KnownProtocolKind.stringLiteralConvertible
  | Expr.interpolatedStringLiteral => gp KnownProtocolKind.stringInterpolationConvertible
  | Expr.magicIdentifierLiteral MagicIdentKind.file =>
      gp KnownProtocolKind.stringLiteralConvertible
  | Expr.magicIdentifierLiteral MagicIdentKind.function =>
      gp KnownProtocolKind.stringLiteralConvertible
  | Expr.magicIdentifierLiteral MagicIdentKind.line =>
      gp KnownProtocolKind.integerLiteralConvertible
  | Expr.magicIdentifierLiteral MagicIdentKind.column =>
      gp KnownProtocolKind.integerLiteralConvertible

/-- The capability table exactly as the claim states it: the twelve listed
rows and nothing else — in particular no row for character literals, so
the claimed mapping gives them no capability. -/
def claimLiteralTable : Expr → Option KnownProtocolKind
  | Expr.nilLiteral => some KnownProtocolKind.nilLiteralConvertible
  | Expr.integerLiteral => some KnownProtocolKind.integerLiteralConvertible
  | Expr.floatLiteral => some KnownProtocolKind.floatLiteralConvertible
  | Expr.booleanLiteral => some KnownProtocolKind.booleanLiteralConvertible
  | Expr.stringLiteral true =>
      some KnownProtocolKind.extendedGraphemeClusterLiteralConvertible
  | Expr.stringLiteral false => some KnownProtocolKind.stringLiteralConvertible
  | Expr.interpolatedStringLiteral =>
      some KnownProtocolKind.stringInterpolationConvertible
  | Expr.arrayExpr => some KnownProtocolKind.arrayLiteralConvertible
  | Expr.dictionaryExpr => some KnownProtocolKind.dictionaryLiteralConvertible
  | Expr.magicIdentifierLiteral MagicIdentKind.file =>
      some KnownProtocolKind.stringLiteralConvertible
  | Expr.magicIdentifierLiteral MagicIdentKind.function =>
      some KnownProtocolKind.stringLiteralConvertible
  | Expr.magicIdentifierLiteral MagicIdentKind.line =>
      some KnownProtocolKind.integerLiteralConvertible
  | Expr.magicIdentifierLiteral MagicIdentKind.column =>
      some KnownProtocolKind.integerLiteralConvertible
  | _ => none

/-- The claim's table amended with the one row the code also implements:
character literals map to the character-literal capability. -/
def codeLiteralTable : Expr → Option KnownProtocolKind
  | Expr.characterLiteral => some KnownProtocolKind.characterLiteralConvertible
  | e => claimLiteralTable e

/-- C5 counterexample: the code maps character literals to the
character-literal capability, an expression kind outside the claim's
table mapping to a capability (the claimed table maps it to none). -/
theorem getLiteralProtocol_character_not_in_table :
    getLiteralProtocol some Expr.characterLiteral =
      some KnownProtocolKind.characterLiteralConvertible ∧
    claimLiteralTable Expr.characterLiteral = none ∧
    ¬ (getLiteralProtocol some Expr.characterLiteral =
        (claimLiteralTable Expr.characterLiteral).bind some) := by
  refine ⟨rfl, rfl, ?_⟩
  intro h
  exact Option.noConfusion h

/-- C5 (amended): `getLiteralProtocol` is total and, for every expression
and every registry collaborator, requests exactly the capability of the
claim's table extended with the character-literal row: nil, integer,
float, boolean, single-grapheme string, general string, interpolated
string, array sugar, dictionary sugar, magic file/function, magic
line/column, character — and none for every non-literal expression. -/
theorem getLiteralProtocol_follows_table {α : Type}
    (gp : KnownProtocolKind → Option α) (e : Expr) :
    getLiteralProtocol gp e = (codeLiteralTable e).bind gp := by
  cases e with
  | stringLiteral b => cases b <;> rfl
  | magicIdentifierLiteral k => cases k <;> rfl
  | _ => rfl

/-- One component of a written inheritance entry's dotted name. -/
inductive IdentComponent where
  | simpleIdent (name : String)
  | genericIdent (name : String)
  deriving DecidableEq

/-- The type representation of a written inheritance entry: a dotted
identifier path or anything else. -/
inductive TypeReprM where
  | identRepr (components : List IdentComponent)
  | otherRepr
  deriving DecidableEq

/-- One entry of a declaration's written inheritance/conformance list;
`getTypeRepr()` may be null. -/
structure InheritedEntry where
  typeRepr : Option TypeReprM
  deriving DecidableEq

/-- Modelled from the spec: the fixed registry of compiler-known
capability names.  The source produces it by expanding
`#include "swift/AST/KnownProtocols.def"`, a file that is not part of
this repository's sources; the names here are the capability names the
spec's table uses. -/
def knownProtocolNames : List String :=
  ["ArrayLiteralConvertible", "DictionaryLiteralConvertible",
   "NilLiteralConvertible", "IntegerLiteralConvertible",
   "FloatLiteralConvertible", "BooleanLiteralConvertible",
   "CharacterLiteralConvertible", "ExtendedGraphemeClusterLiteralConvertible",
   "StringLiteralConvertible", "StringInterpolationConvertible"]

/-- `mayConformToKnownProtocol` (lines 306–329), parameterised by the
registry of known names: scan the written inheritance entries; an entry
contributes only when it has an identifier type representation whose last
component is a simple identifier, and that identifier's text is matched
exactly against the registry. -/
def mayConformToKnownProtocol (names : List String)
    (inherited : List InheritedEntry) : Bool :=
  inherited.any (fun entry =>
    match entry.typeRepr with
    | some (TypeReprM.identRepr comps) =>
      match comps.getLast? with
      | some (IdentComponent.simpleIdent nm) => names.contains nm
      | _ => false
    | _ => false)

theorem mayConformToKnownProtocol_iff (names : List String)
    (inherited : List InheritedEntry) :
    mayConformToKnownProtocol names inherited = true ↔
      ∃ entry ∈ inherited, ∃ comps nm,
        entry.typeRepr = some (TypeReprM.identRepr comps) ∧
        comps.getLast? = some (IdentComponent.simpleIdent nm) ∧
        nm ∈ names := by
  unfold mayConformToKnownProtocol
  rw [List.any_eq_true]
  constructor
  · rintro ⟨entry, hmem, hp⟩
    cases hrep : entry.typeRepr with
    | none => simp only [hrep] at hp; exact Bool.noConfusion hp
    | some repr =>
      cases repr with
      | otherRepr => simp only [hrep] at hp; exact Bool.noConfusion hp
      | identRepr comps =>
        simp only [hrep] at hp
        cases hlast : comps.getLast? with
        | none => simp only [hlast] at hp; exact Bool.noConfusion hp
        | some comp =>
          cases comp with
          | genericIdent nm => simp only [hlast] at hp; exact Bool.noConfusion hp
          | simpleIdent nm =>
            simp only [hlast] at hp
            exact ⟨entry, hmem, comps, nm, hrep, hlast, List.elem_iff.mp hp⟩
  · rintro ⟨entry, hmem, comps, nm, hrep, hlast, hnm⟩
    refine ⟨entry, hmem, ?_⟩
    simp only [hrep, hlast]
    exact List.elem_iff.mpr hnm

/-- C7: `mayConformToKnownProtocol` over the fixed registry returns true
iff some written inheritance entry has an identifier type representation
whose final component is a simple identifier whose text exactly
(case-sensitively, with no alias or type resolution) equals one of the
fixed compiler-known capability names; entries whose final component is
not a simple identifier never contribute. -/
theorem mayConformToKnownProtocol_syntactic_scan
    (inherited : List InheritedEntry) :
    mayConformToKnownProtocol knownProtocolNames inherited = true ↔
      ∃ entry ∈ inherited, ∃ comps nm,
        entry.typeRepr = some (TypeReprM.identRepr comps) ∧
        comps.getLast? = some (IdentComponent.simpleIdent nm) ∧
        nm ∈ knownProtocolNames :=
  mayConformToKnownProtocol_iff knownProtocolNames inherited

/-- C8 counterexample: a lookup of an absent capability at an invalid
source location emits no diagnostic at all (the code diagnoses only when
`loc.isValid()`), refuting "one diagnostic per lookup site" as a
universal statement; the lookup still returns none. -/
theorem getProtocol_missing_silent_at_invalid_loc :
    (getProtocol (fun _ => none) false KnownProtocolKind.nilLiteralConvertible).1 =
      none ∧
    (getProtocol (fun _ => none) false KnownProtocolKind.nilLiteralConvertible).2 =
      [] ∧
    ¬ ((getProtocol (fun _ => none) false
          KnownProtocolKind.nilLiteralConvertible).2.length = 1) := by
  refine ⟨rfl, rfl, ?_⟩
  intro h
  simp [getProtocol] at h

/-- C8 (amended): for every lookup whose required capability is absent
from the registry, `getProtocol` returns none — the caller sees "no
default available", never a fatal error — and emits exactly one
`missing_protocol` diagnostic when the lookup site's location is valid,
and none when it is invalid. -/
theorem getProtocol_missing_capability
    (registry : KnownProtocolKind → Option ProtocolM) (locValid : Bool)
    (kind : KnownProtocolKind) (h : registry kind = none) :
    (getProtocol registry locValid kind).1 = none ∧
    (getProtocol registry locValid kind).2 =
      (if locValid then [PDiag.missingProtocol kind] else []) := by
  unfold getProtocol
  rw [h]
  exact ⟨rfl, rfl⟩

/-- Witness: the missing-capability theorem applied to the empty registry
at a valid lookup location. -/
theorem getProtocol_missing_capability_witness :
    ((fun _ : KnownProtocolKind => (none : Option ProtocolM))
        KnownProtocolKind.nilLiteralConvertible = none) ∧
    ((getProtocol (fun _ => none) true KnownProtocolKind.nilLiteralConvertible).1 =
      none ∧
     (getProtocol (fun _ => none) true KnownProtocolKind.nilLiteralConvertible).2 =
      (if true then [PDiag.missingProtocol KnownProtocolKind.nilLiteralConvertible]
       else [])) :=
  ⟨rfl, getProtocol_missing_capability (fun _ => none) true
    KnownProtocolKind.nilLiteralConvertible rfl⟩

/-! ## The sealing walker (`TryAddFinal`) -/

/-- Declaration accessibility. -/
inductive Access where
  | privateAccess
  | internalAccess
  | publicAccess
  deriving DecidableEq

/-- The value-declaration kinds `walkToDeclPre` distinguishes through its
`dyn_cast` chain.  For function-like declarations the flag records
`FuncDecl::isSetter()`. -/
inductive VKind where
  | storageKind
  | functionKind (isSetter : Bool)
  | classKind (isObjC : Bool)
  | constructorKind
  | destructorKind
  | otherValueKind
  deriving DecidableEq

/-- A value declaration as the sealing walker observes it.  `dynamicImplicit`
models the `dynamic` attribute: absent, or present with its
`isImplicit()` bit.  `overridden` and `accessorStorage` are the
declarations reachable through `getOverriddenDecl()` and
`getAccessorStorageDecl()`. -/
inductive VDecl where
  | mk (kind : VKind) (isFinal : Bool) (isInvalid : Bool) (hasAccess : Bool)
       (access : Access) (dynamicImplicit : Option Bool)
       (overridden : Option VDecl) (accessorStorage : Option VDecl)
       (isOverridden : Bool) (inClass : Bool)

def VDecl.kind : VDecl → VKind
  | .mk k _ _ _ _ _ _ _ _ _ => k

def VDecl.isFinal : VDecl → Bool
  | .mk _ f _ _ _ _ _ _ _ _ => f

def VDecl.isInvalid : VDecl → Bool
  | .mk _ _ i _ _ _ _ _ _ _ => i

def VDecl.hasAccess : VDecl → Bool
  | .mk _ _ _ h _ _ _ _ _ _ => h

def VDecl.access : VDecl → Access
  | .mk _ _ _ _ a _ _ _ _ _ => a

def VDecl.dynamicImplicit : VDecl → Option Bool
  | .mk _ _ _ _ _ d _ _ _ _ => d

def VDecl.overridden : VDecl → Option VDecl
  | .mk _ _ _ _ _ _ o _ _ _ => o

def VDecl.accessorStorage : VDecl → Option VDecl
  | .mk _ _ _ _ _ _ _ s _ _ => s

def VDecl.isOverridden : VDecl → Bool
  | .mk _ _ _ _ _ _ _ _ ov _ => ov

def VDecl.inClass : VDecl → Bool
  | .mk _ _ _ _ _ _ _ _ _ c => c

/-- `TryAddFinal::isInferredDynamic` (lines 546–570) on a non-null
declaration: an accessor function first requires its storage declaration
to be only inferred-dynamic; then an absent `dynamic` attribute counts as
inferred, an explicit one does not, and an implicit one defers to the
overridden declaration (null overridden counting as inferred). -/
def isInferredDynamicD : VDecl → Bool
  | VDecl.mk kind _ _ _ _ dynImp over stor _ _ =>
    (match kind, stor with
     | VKind.functionKind _, some s => isInferredDynamicD s
     | _, _ => true) &&
    (match dynImp with
     | some true =>
       (match over with
        | some o => isInferredDynamicD o
        | none => true)
     | some false => false
     | none => true)

/-- What `walkToDeclPre` did to one declaration: whether execution reached
the `addFinal` call site, and whether it removed an inferred `dynamic`
attribute there. -/
structure SealOutcome where
  reachedAddFinal : Bool
  removedDynamic : Bool
  deriving DecidableEq

/-- The outcome on every path that never reaches `addFinal`. -/
def noSeal : SealOutcome := ⟨false, false⟩

/-- `getAccessorStorageDecl()->isFinal()`.  A setter always has a paired
storage declaration in a well-formed AST, so the `none` case is
unreachable. -/
def storageIsFinal (v : VDecl) : Bool :=
  match v.accessorStorage with
  | some s => s.isFinal
  | none => false

/-- Lines 600–651: the accessibility gate and the per-kind sealing
decision, entered after the early-exit and dynamic checks with
`removeDynamic` already computed. -/
def sealGate (wholeModComp : Bool) (v : VDecl) (removeDynamic : Bool) : SealOutcome :=
  if v.access = Access.publicAccess then noSeal
  else if v.access = Access.internalAccess ∧ wholeModComp = false then noSeal
  else
    match v.kind with
    | VKind.storageKind =>
      if v.isOverridden = false ∧ v.inClass = true then ⟨true, removeDynamic⟩
      else noSeal
    | VKind.functionKind isSetter =>
      if v.isOverridden = false ∧ v.inClass = true then
        if isSetter = true ∧ storageIsFinal v = false then noSeal
        else ⟨true, removeDynamic⟩
      else noSeal
    | _ => noSeal

/-- `TryAddFinal::walkToDeclPre` (lines 572–652) for one value
declaration: constructors and destructors are skipped; so are
declarations already final, invalid, or without computed accessibility;
a declaration carrying a `dynamic` attribute is sealed only when that
attribute (and every one up its override chain) was compiler-inferred, in
which case reaching `addFinal` also removes it. -/
def walkToDeclPre (wholeModComp : Bool) (v : VDecl) : SealOutcome :=
  if v.kind = VKind.constructorKind ∨ v.kind = VKind.destructorKind then noSeal
  else if v.isFinal = true ∨ v.isInvalid = true ∨ v.hasAccess = false then noSeal
  else
    match v.dynamicImplicit with
    | some _ =>
      if isInferredDynamicD v = false then noSeal
      else sealGate wholeModComp v true
    | none => sealGate wholeModComp v false

/-- Modelled from the spec: `TryAddFinal::addFinal`'s body is commented
out in the source ("Do not add the 'final' attribute", referencing a
previously fixed defect), so the source as written never applies the
seal; the spec (§9) directs modelling this as an explicit `applySealing`
policy flag.  A member is sealed when the walk reaches the `addFinal`
call site and the policy applies the seal. -/
def sealedBy (applySealing wholeModComp : Bool) (v : VDecl) : Bool :=
  applySealing && (walkToDeclPre wholeModComp v).reachedAddFinal

theorem sealGate_public (w r : Bool) (v : VDecl)
    (h : v.access = Access.publicAccess) : sealGate w v r = noSeal := by
  unfold sealGate
  rw [if_pos h]

theorem sealGate_internal_reached (w r : Bool) (v : VDecl)
    (h : v.access = Access.internalAccess)
    (hr : (sealGate w v r).reachedAddFinal = true) : w = true := by
  by_contra hw
  have hw' : w = false := by cases w with
    | true => exact absurd rfl hw
    | false => rfl
  unfold sealGate at hr
  rw [if_neg (by rw [h]; intro hc; exact Access.noConfusion hc),
    if_pos ⟨h, hw'⟩] at hr
  exact Bool.noConfusion hr

theorem sealGate_setter_unsealed (w r : Bool) (v : VDecl) (s : VDecl)
    (hk : v.kind = VKind.functionKind true)
    (hs : v.accessorStorage = some s) (hsf : s.isFinal = false) :
    (sealGate w v r).reachedAddFinal = false := by
  have hfin : storageIsFinal v = false := by
    unfold storageIsFinal
    simp only [hs]
    exact hsf
  unfold sealGate
  by_cases h1 : v.access = Access.publicAccess
  · rw [if_pos h1]; rfl
  · rw [if_neg h1]
    by_cases h2 : v.access = Access.internalAccess ∧ w = false
    · rw [if_pos h2]; rfl
    · rw [if_neg h2, hk]
      dsimp only
      by_cases h3 : v.isOverridden = false ∧ v.inClass = true
      · rw [if_pos h3, if_pos ⟨rfl, hfin⟩]; rfl
      · rw [if_neg h3]; rfl

theorem walkToDeclPre_cases (w : Bool) (v : VDecl) :
    walkToDeclPre w v = noSeal ∨
    ∃ r, walkToDeclPre w v = sealGate w v r := by
  unfold walkToDeclPre
  by_cases h1 : v.kind = VKind.constructorKind ∨ v.kind = VKind.destructorKind
  · rw [if_pos h1]; exact Or.inl rfl
  · rw [if_neg h1]
    by_cases h2 : v.isFinal = true ∨ v.isInvalid = true ∨ v.hasAccess = false
    · rw [if_pos h2]; exact Or.inl rfl
    · rw [if_neg h2]
      cases v.dynamicImplicit with
      | none => exact Or.inr ⟨false, rfl⟩
      | some b =>
        by_cases h3 : isInferredDynamicD v = false
        · rw [if_pos h3]; exact Or.inl rfl
        · rw [if_neg h3]; exact Or.inr ⟨true, rfl⟩

/-- C9 counterexample: an internal, never-overridden, storage-backed
member of a class that carries an explicitly written (non-inferred)
`dynamic` attribute is not sealed even with whole-module compilation
enabled and the sealing policy applied — refuting "sealed exactly when
whole-module compilation mode is enabled" as an equivalence. -/
def vDynEx : VDecl :=
  VDecl.mk VKind.storageKind false false true Access.internalAccess
    (some false) none none false true

theorem sealing_internal_not_iff_whole_module :
    vDynEx.access = Access.internalAccess ∧
    vDynEx.isOverridden = false ∧
    vDynEx.inClass = true ∧
    vDynEx.kind = VKind.storageKind ∧
    vDynEx.isFinal = false ∧
    vDynEx.isInvalid = false ∧
    vDynEx.hasAccess = true ∧
    sealedBy true true vDynEx = false :=
  ⟨rfl, rfl, rfl, rfl, rfl, rfl, rfl, rfl⟩

/-- C9 (amended): in the sealing pass, a public member is never sealed in
any compilation mode; an internal member is sealed only when whole-module
compilation is enabled, and with whole-module compilation on an internal,
never-overridden, storage-backed or non-setter function-like member in a
class context is sealed (under the sealing policy) provided it passes the
remaining gates (not already final or invalid, accessibility computed,
any dynamic marker inferred); and a setter accessor is never sealed while
its paired storage declaration remains unsealed. -/
theorem sealing_visibility_and_setter_rules
    (applySealing wholeModComp : Bool) (v : VDecl) :
    (v.access = Access.publicAccess →
      sealedBy applySealing wholeModComp v = false) ∧
    (v.access = Access.internalAccess →
      sealedBy applySealing wholeModComp v = true → wholeModComp = true) ∧
    (v.access = Access.internalAccess → wholeModComp = true →
      (v.kind = VKind.storageKind ∨ v.kind = VKind.functionKind false) →
      v.isFinal = false → v.isInvalid = false → v.hasAccess = true →
      isInferredDynamicD v = true →
      v.isOverridden = false → v.inClass = true →
      (walkToDeclPre wholeModComp v).reachedAddFinal = true ∧
      sealedBy true wholeModComp v = true) ∧
    (∀ s, v.kind = VKind.functionKind true → v.accessorStorage = some s →
      s.isFinal = false → sealedBy applySealing wholeModComp v = false) := by
  refine ⟨?_, ?_, ?_, ?_⟩
  · intro hpub
    unfold sealedBy
    rcases walkToDeclPre_cases wholeModComp v with h | ⟨r, h⟩
    · rw [h]; exact Bool.and_false _
    · rw [h, sealGate_public _ _ _ hpub]; exact Bool.and_false _
  · intro hint hs
    unfold sealedBy at hs
    rcases walkToDeclPre_cases wholeModComp v with h | ⟨r, h⟩
    · rw [h] at hs; simp [noSeal] at hs
    · rw [h] at hs
      simp only [Bool.and_eq_true] at hs
      exact sealGate_internal_reached _ _ _ hint hs.2
  · intro hint hw hkind hfin hinv hacc hdyn hov hcls
    have hgate : ∀ r, (sealGate wholeModComp v r).reachedAddFinal = true := by
      intro r
      unfold sealGate
      rw [if_neg (by rw [hint]; intro hc; exact Access.noConfusion hc),
        if_neg (by rw [hw]; rintro ⟨_, hc⟩; exact Bool.noConfusion hc)]
      rcases hkind with hk | hk <;> rw [hk] <;> dsimp only
      · rw [if_pos ⟨hov, hcls⟩]
      · rw [if_pos ⟨hov, hcls⟩,
          if_neg (by rintro ⟨hc, _⟩; exact Bool.noConfusion hc)]
    have hreach : (walkToDeclPre wholeModComp v).reachedAddFinal = true := by
      unfold walkToDeclPre
      rw [if_neg ?hcd, if_neg ?hfi]
      case hcd =>
        rintro (hc | hc) <;> rcases hkind with hk | hk <;>
          rw [hk] at hc <;> exact VKind.noConfusion hc
      case hfi =>
        rintro (hc | hc | hc)
        · rw [hfin] at hc; exact Bool.noConfusion hc
        · rw [hinv] at hc; exact Bool.noConfusion hc
        · rw [hacc] at hc; exact Bool.noConfusion hc
      cases v.dynamicImplicit with
      | none => exact hgate false
      | some b =>
        rw [if_neg (by rw [hdyn]; intro hc; exact Bool.noConfusion hc)]
        exact hgate true
    exact ⟨hreach, by unfold sealedBy; rw [hreach]; rfl⟩
  · intro s hk hs hsf
    unfold sealedBy
    rcases walkToDeclPre_cases wholeModComp v with h | ⟨r, h⟩
    · rw [h]; exact Bool.and_false _
    · rw [h, Bool.and_eq_false_iff]
      exact Or.inr (by rw [sealGate_setter_unsealed _ _ _ _ hk hs hsf])

/-- Eligible internal storage member used by the sealing witness. -/
def vIntEx : VDecl :=
  VDecl.mk VKind.storageKind false false true Access.internalAccess
    none none none false true

/-- Witness: the sealing rules applied to the concrete eligible internal
storage member `vIntEx` with whole-module compilation on. -/
theorem sealing_visibility_and_setter_rules_witness :
    (vIntEx.access = Access.internalAccess ∧
     vIntEx.kind = VKind.storageKind ∧
     vIntEx.isFinal = false ∧ vIntEx.isInvalid = false ∧
     vIntEx.hasAccess = true ∧ isInferredDynamicD vIntEx = true ∧
     vIntEx.isOverridden = false ∧ vIntEx.inClass = true) ∧
    ((walkToDeclPre true vIntEx).reachedAddFinal = true ∧
     sealedBy true true vIntEx = true) :=
  ⟨⟨rfl, rfl, rfl, rfl, rfl, rfl, rfl, rfl⟩,
   (sealing_visibility_and_setter_rules true true vIntEx).2.2.1
     rfl rfl (Or.inl rfl) rfl rfl rfl rfl rfl rfl⟩

end SemaDriver
